import Mathlib

/-!
# smt-bolt: the bbolt-backed storage adapter of a sparse Merkle tree

A shallow embedding of `bolt.go` (package `store`).  The adapter stores the nodes
of a Merkle tree, and the tree's current root, in one bucket (`tree`) of an
embedded sorted key-value engine, and multiplexes several logical stores over
that bucket by prefixing keys.

Two collaborators are external to the package and are modelled at their
boundary only:

* the tree library (`merkletree`): node and hash (de)serialisation is a
  parameter of the development (`Codec`);
* the engine (`bbolt`): a bucket is a key-sorted list of entries, a cursor is the
  list of entries that remain to be visited, and a transaction either runs its
  body on the bucket or fails before running it because the database is closed.

Mutable Go state is passed explicitly: every operation takes the store handle
and the engine state and returns what Go returns together with the updated
handle or engine wherever the Go code can change it.
-/

namespace Store

/-! ## Byte strings -/

/-- A Go `[]byte`: each element is one byte value. -/
abbrev Bytes := List Nat

/-- The order of `bytes.Compare(a, b) < 0`: lexicographic, byte by byte, a proper
leading part being smaller. The engine keeps its keys in this order. -/
def bytesLt : Bytes → Bytes → Bool
  | [], [] => false
  | [], _ :: _ => true
  | _ :: _, [] => false
  | a :: as, b :: bs =>
    if a < b then true else if b < a then false else bytesLt as bs

/-- Go `bytes.HasPrefix(s, p)`: `s` begins with `p`. -/
def HasPrefix (s p : Bytes) : Bool := p.isPrefixOf s

/-- Go `bytes.TrimPrefix(s, p)`: `s` without the leading `p`, or `s` itself when
it does not begin with `p`. -/
def TrimPrefix (s p : Bytes) : Bytes :=
  if HasPrefix s p then s.drop p.length else s

/-- The tree library's `merkletree.Concat` on two byte strings. -/
def Concat (a b : Bytes) : Bytes := a ++ b

/-- The tree library's `merkletree.Clone`: a copy of the bytes. -/
def Clone (b : Bytes) : Bytes := b

/-- The bucket name `[]byte("tree")`. -/
def treeName : Bytes := [116, 114, 101, 101]

/-- The reserved key `[]byte("root")`. -/
def rootKey : Bytes := [114, 111, 111, 116]

/-! ## Errors -/

/-- An error of one of the tree library's decoders (`NewNodeFromBytes`,
`NewHashFromHex`); the library is external, so the error is identified by a
code. -/
structure DecodeError where
  code : Nat
  deriving DecidableEq, Repr

/-- The Go `error` values that flow through the adapter. -/
inductive Error where
  /-- The sentinel `merkletree.ErrNotFound`. -/
  | ErrNotFound
  /-- The engine's `ErrDatabaseNotOpen`: a transaction was begun on a closed database. -/
  | ErrDatabaseNotOpen
  /-- The engine's `ErrKeyRequired`: `Put` with an empty key. -/
  | ErrKeyRequired
  /-- The engine's `ErrKeyTooLarge`. -/
  | ErrKeyTooLarge
  /-- The engine's `ErrValueTooLarge`. -/
  | ErrValueTooLarge
  /-- An error returned by a decoder of the tree library. -/
  | decode (e : DecodeError)
  /-- Any other error value, such as one made up by an `Iterate` callback. -/
  | other (code : Nat)
  deriving DecidableEq, Repr

/-! ## The tree library's codec -/

/-- What the adapter uses of the tree library: `(*Node).Value`,
`NewNodeFromBytes`, `(*Hash).Hex` (as the bytes of the text) and
`NewHashFromHex` (on the bytes of the text). -/
structure Codec (Node Hash : Type) where
  Value : Node → Bytes
  NewNodeFromBytes : Bytes → Except DecodeError Node
  Hex : Hash → Bytes
  NewHashFromHex : Bytes → Except DecodeError Hash

/-- The tree library's `merkletree.KV`. -/
structure KV (Node : Type) where
  K : Bytes
  V : Node
  deriving DecidableEq, Repr

/-! ## The engine -/

/-- The entries of one bucket, in the order the engine keeps them. -/
abbrev Bucket := List (Bytes × Bytes)

/-- The engine's invariant: keys are strictly ascending. -/
def Bucket.Sorted (b : Bucket) : Prop :=
  b.Pairwise (fun x y => bytesLt x.1 y.1 = true)

instance (b : Bucket) : Decidable b.Sorted :=
  inferInstanceAs
    (Decidable (List.Pairwise (fun (x y : Bytes × Bytes) => bytesLt x.1 y.1 = true) b))

/-- The engine's `MaxKeySize`. -/
def MaxKeySize : Nat := 32768

/-- The engine's `MaxValueSize`. -/
def MaxValueSize : Nat := 2147483646

/-- The engine's `Bucket.Get`: the value stored under exactly `key`, `none` (Go
`nil`) when the key is absent. -/
def Bucket.Get : Bucket → Bytes → Option Bytes
  | [], _ => none
  | (k, v) :: rest, key => if k = key then some v else Bucket.Get rest key

/-- Upsert into the sorted entries: a new key goes to its place in the order, an
existing key keeps its place and gets the new value. -/
def Bucket.upsert (key value : Bytes) : Bucket → Bucket
  | [] => [(key, value)]
  | (k, v) :: rest =>
    if bytesLt key k then (key, value) :: (k, v) :: rest
    else if key = k then (key, value) :: rest
    else (k, v) :: Bucket.upsert key value rest

/-- The engine's `Bucket.Put`: the bucket afterwards and the error; a refused
write leaves the bucket as it was. -/
def Bucket.Put (b : Bucket) (key value : Bytes) : Bucket × Option Error :=
  if key.length = 0 then (b, some Error.ErrKeyRequired)
  else if key.length > MaxKeySize then (b, some Error.ErrKeyTooLarge)
  else if value.length > MaxValueSize then (b, some Error.ErrValueTooLarge)
  else (b.upsert key value, none)

/-- The engine's `Cursor.Seek`: the cursor stands on the first entry whose key
is not below `seek`; the result lists that entry and all that `Next` will
reach after it (empty when Go gets a `nil` key). -/
def Bucket.Seek (b : Bucket) (seek : Bytes) : List (Bytes × Bytes) :=
  b.dropWhile (fun e => bytesLt e.1 seek)

/-- The engine as the adapter sees it: whether the database is open, and the
entries of bucket `tree` (no entries when the bucket is new). -/
structure DB where
  opened : Bool
  tree : Bucket
  deriving DecidableEq, Repr

/-- The engine's `DB.View`: runs `fn` in a read-only transaction. `fn` may change
variables of the enclosing Go function, which are threaded as `s`. -/
def DB.View {σ : Type} (db : DB) (fn : Bucket → σ → σ × Option Error) (s : σ) :
    σ × Option Error :=
  if db.opened then fn db.tree s else (s, some Error.ErrDatabaseNotOpen)

/-- The engine's `DB.Update`: runs `fn` in a read-write transaction, commits
when `fn` returns no error and rolls back otherwise. -/
def DB.Update (db : DB) (fn : Bucket → Bucket × Option Error) : DB × Option Error :=
  if db.opened then
    match fn db.tree with
    | (_, some e) => (db, some e)
    | (b, none) => ({ db with tree := b }, none)
  else (db, some Error.ErrDatabaseNotOpen)

/-! ## The adapter (`bolt.go`) -/

/-- The Go struct `BoltStore`. Field `pfx` is Go's `prefix`; the field `db` is a
pointer to the shared engine, whose state is passed to every operation. -/
structure BoltStore (Hash : Type) where
  pfx : Bytes
  currentRoot : Option Hash
  deriving DecidableEq, Repr

section Adapter

variable {Node Hash : Type}

/-- `NewBoltStorage`: creates bucket `tree` if it does not exist (which leaves the
entries of `tree` as they are) and returns the handle with the empty prefix and
no cached root. -/
def NewBoltStorage (db : DB) : DB × Except Error (BoltStore Hash) :=
  match db.Update (fun b => (b, none)) with
  | (db1, some err) => (db1, Except.error err)
  | (db1, none) => (db1, Except.ok ⟨[], none⟩)

/-- `BoltStore.WithPrefix`. -/
def BoltStore.WithPrefix (m : BoltStore Hash) (p : Bytes) : BoltStore Hash :=
  ⟨Concat m.pfx p, none⟩

/-- `BoltStore.Get`. -/
def BoltStore.Get (C : Codec Node Hash) (m : BoltStore Hash) (db : DB) (key : Bytes) :
    Except Error Node :=
  match db.View (fun b _ => (b.Get (Concat m.pfx key), none)) (none : Option Bytes) with
  | (_, some err) => Except.error err
  | (none, none) => Except.error Error.ErrNotFound
  | (some v, none) =>
    match C.NewNodeFromBytes v with
    | Except.ok n => Except.ok n
    | Except.error e => Except.error (Error.decode e)

/-- `BoltStore.Put`: the returned error and the engine afterwards. -/
def BoltStore.Put (C : Codec Node Hash) (m : BoltStore Hash) (db : DB) (key : Bytes) (node : Node) :
    Option Error × DB :=
  let v := C.Value node
  match db.Update (fun b => b.Put (Concat m.pfx key) v) with
  | (db1, err) => (err, db1)

/-- `BoltStore.GetRoot`: the returned hash pointer and error, and the handle
afterwards. -/
def BoltStore.GetRoot (C : Codec Node Hash) (m : BoltStore Hash) (db : DB) :
    Option Hash × Option Error × BoltStore Hash :=
  match m.currentRoot with
  | some r => (some r, none, m)
  | none =>
    match db.View (fun b cur =>
        match b.Get rootKey with
        | none => (cur, some Error.ErrNotFound)
        | some v =>
          match C.NewHashFromHex v with
          | Except.error e => (cur, some (Error.decode e))
          | Except.ok hash => (some hash, none)) m.currentRoot with
    | (cur, err) => (cur, err, { m with currentRoot := cur })

/-- `BoltStore.SetRoot`: the returned error, the handle and the engine
afterwards. -/
def BoltStore.SetRoot (C : Codec Node Hash) (m : BoltStore Hash) (db : DB) (hash : Hash) :
    Option Error × BoltStore Hash × DB :=
  let root := hash
  match db.Update (fun b => b.Put rootKey (C.Hex root)) with
  | (db1, some err) => (some err, m, db1)
  | (db1, none) => (none, { m with currentRoot := some root }, db1)

/-- The cursor loop of `Iterate`, from the entry the cursor stands on. The
callback `f` is a Go closure: its captured variables are the state `s`. -/
def iterateLoop {σ : Type} (C : Codec Node Hash) (p : Bytes)
    (f : σ → Bytes → Node → σ × Bool × Option Error) :
    List (Bytes × Bytes) → σ → σ × Option Error
  | [], s => (s, none)
  | (k, v) :: rest, s =>
    if HasPrefix k p then
      match C.NewNodeFromBytes v with
      | Except.error e => (s, some (Error.decode e))
      | Except.ok n =>
        match f s (Clone (TrimPrefix k p)) n with
        | (s1, _, some err) => (s1, some err)
        | (s1, cont, none) =>
          if !cont then (s1, none) else iterateLoop C p f rest s1
    else (s, none)

/-- `BoltStore.Iterate`: the callback's state afterwards and the returned
error. -/
def BoltStore.Iterate {σ : Type} (C : Codec Node Hash) (m : BoltStore Hash) (db : DB)
    (f : σ → Bytes → Node → σ × Bool × Option Error) (s : σ) : σ × Option Error :=
  db.View (fun b s0 => iterateLoop C m.pfx f (b.Seek m.pfx) s0) s

/-- The cursor loop of `List`, from the entry the cursor stands on, with the
entries collected so far and their count. `limit` and `count` are Go `int`s;
`count` never exceeds the number of entries in the bucket, so it does not
wrap. -/
def listLoop (C : Codec Node Hash) (p : Bytes) (limit : Int) :
    List (Bytes × Bytes) → List (KV Node) → Int → List (KV Node) × Option Error
  | [], res, _ => (res, none)
  | (k, v) :: rest, res, count =>
    if HasPrefix k p then
      match C.NewNodeFromBytes v with
      | Except.error e => (res, some (Error.decode e))
      | Except.ok n =>
        let res1 := res ++ [⟨Clone (TrimPrefix k p), n⟩]
        let count1 := count + 1
        if limit ≠ 0 ∧ count1 ≥ limit then (res1, none)
        else listLoop C p limit rest res1 count1
    else (res, none)

/-- `BoltStore.List`: the returned slice and error. -/
def BoltStore.List (C : Codec Node Hash) (m : BoltStore Hash) (db : DB) (limit : Int) :
    List (KV Node) × Option Error :=
  db.View (fun b res => listLoop C m.pfx limit (b.Seek m.pfx) res 0) []

/-- What a scan makes of one engine entry: the key without the handle's prefix
and the decoded node; `none` when the value does not decode. -/
def entryKV (C : Codec Node Hash) (p : Bytes) (e : Bytes × Bytes) : Option (KV Node) :=
  match C.NewNodeFromBytes e.2 with
  | Except.ok n => some ⟨TrimPrefix e.1 p, n⟩
  | Except.error _ => none

end Adapter

/-! ## A small tree library to instantiate the codec -/

/-- Nodes of a small tree library: an empty node, a leaf with a key and a value
byte, a middle node with two child bytes. -/
inductive SampleNode where
  | empty
  | leaf (k v : Nat)
  | middle (l r : Nat)
  deriving DecidableEq, Repr

/-- Serialisation of a sample node: a type byte and the payload; the empty node
has no bytes. -/
def SampleNode.Value : SampleNode → Bytes
  | SampleNode.empty => []
  | SampleNode.leaf k v => [1, k, v]
  | SampleNode.middle l r => [0, l, r]

/-- Deserialisation of a sample node; it rejects an input without a type byte
(code 1) and an unknown type byte or a payload of the wrong size (code 2). -/
def SampleNode.FromBytes : Bytes → Except DecodeError SampleNode
  | [] => Except.error ⟨1⟩
  | [0, l, r] => Except.ok (SampleNode.middle l r)
  | [1, k, v] => Except.ok (SampleNode.leaf k v)
  | [2] => Except.ok SampleNode.empty
  | _ => Except.error ⟨2⟩

/-- The ASCII code of the lower-case hexadecimal digit of `n < 16`. -/
def hexDigit (n : Nat) : Nat := if n < 10 then 48 + n else 87 + n

/-- The value of an ASCII hexadecimal digit. -/
def unhexDigit (c : Nat) : Option Nat :=
  if 48 ≤ c ∧ c ≤ 57 then some (c - 48)
  else if 97 ≤ c ∧ c ≤ 102 then some (c - 87)
  else if 65 ≤ c ∧ c ≤ 70 then some (c - 55)
  else none

/-- Hexadecimal text of a sample hash (a byte string), two digits per byte. -/
def sampleHex : Bytes → Bytes
  | [] => []
  | b :: rest => hexDigit (b / 16 % 16) :: hexDigit (b % 16) :: sampleHex rest

/-- Decoding of hexadecimal text; it rejects an odd length (code 3) and a
character that is no hexadecimal digit (code 4). -/
def sampleFromHex : Bytes → Except DecodeError Bytes
  | [] => Except.ok []
  | [_] => Except.error ⟨3⟩
  | a :: b :: rest =>
    match unhexDigit a, unhexDigit b with
    | some x, some y =>
      match sampleFromHex rest with
      | Except.ok bs => Except.ok ((16 * x + y) :: bs)
      | Except.error e => Except.error e
    | _, _ => Except.error ⟨4⟩

/-- The codec of the small tree library. -/
def sampleCodec : Codec SampleNode Bytes where
  Value := SampleNode.Value
  NewNodeFromBytes := SampleNode.FromBytes
  Hex := sampleHex
  NewHashFromHex := sampleFromHex

/-- An open engine holding node A under key `0x01`, node B under key `0x02` and
node C under key `x ‖ 0x01`. -/
def sampleDB : DB :=
  ⟨true, [([1], [1, 1, 1]), ([2], [1, 2, 2]), ([120, 1], [1, 3, 3])]⟩

/-- The handle with the empty prefix and no cached root, as `NewBoltStorage`
returns it. -/
def rootHandle : BoltStore Bytes := ⟨[], none⟩

/-- The handle for namespace `"x"`, as `WithPrefix` derives it. -/
def xHandle : BoltStore Bytes := ⟨[120], none⟩

/-- A callback for `Iterate` that records the keys it is given and goes on. -/
def recordKeys (s : List Bytes) (k : Bytes) (_ : SampleNode) :
    List Bytes × Bool × Option Error :=
  (s ++ [k], true, none)

/-! ## Observing a run -/

/-- One invocation of an `Iterate` callback: the key and node it was given, and
the continuation signal and error it returned. -/
structure Call (Node : Type) where
  key : Bytes
  node : Node
  cont : Bool
  err : Option Error
  deriving DecidableEq, Repr

/-- The pair a call was given, as `List` would return it. -/
def Call.kv {Node : Type} (c : Call Node) : KV Node := ⟨c.key, c.node⟩

/-- The callback `f` with a log of its invocations added to its captured
variables; it returns what `f` returns. -/
def traced {σ Node : Type} (f : σ → Bytes → Node → σ × Bool × Option Error) :
    σ × List (Call Node) → Bytes → Node → (σ × List (Call Node)) × Bool × Option Error :=
  fun st k n =>
    match f st.1 k n with
    | (s1, cont, err) => ((s1, st.2 ++ [⟨k, n, cont, err⟩]), cont, err)

/-- Every call of the log returned `(true, nil)`. -/
def AllGo {Node : Type} (calls : List (Call Node)) : Prop :=
  ∀ c ∈ calls, c.cont = true ∧ c.err = none

/-- The engine entries under the prefix of handle `m`, in the order of the
bucket. -/
def scanEntries {Hash : Type} (m : BoltStore Hash) (db : DB) : List (Bytes × Bytes) :=
  db.tree.filter (fun e => HasPrefix e.1 m.pfx)

/-- The invocations of the callback `f` in a run of `Iterate`, in order. -/
def IterateCalls {σ Node Hash : Type} (C : Codec Node Hash) (m : BoltStore Hash)
    (db : DB) (f : σ → Bytes → Node → σ × Bool × Option Error) (s : σ) : List (Call Node) :=
  (BoltStore.Iterate C m db (traced f) (s, [])).1.2

/-- How a run over the entries `ys` with invocations `calls` and returned error
`err` ended: every entry was visited; or the last call stopped the run (with a
false signal or with an error, which is the returned error); or the entry
after the last call did not decode (and the decoder's error is returned). -/
def RunOutcome {Node Hash : Type} (C : Codec Node Hash) (ys : List (Bytes × Bytes))
    (calls : List (Call Node)) (err : Option Error) : Prop :=
  (AllGo calls ∧ calls.length = ys.length ∧ err = none) ∨
    (∃ init c, calls = init ++ [c] ∧ AllGo init ∧ (c.cont = false ∨ c.err ≠ none) ∧
      err = c.err) ∨
    (AllGo calls ∧ ∃ e d, ys[calls.length]? = some e ∧
      C.NewNodeFromBytes e.2 = Except.error d ∧ err = some (Error.decode d))

/-- An operation of a client of the engine, seen from one store handle `m`.
`getRoot` and `setRoot` go through `m`; every other operation goes through a
handle `via` of the same engine, which may be any handle (`m` itself for `get`,
`put`, `iterate`, `list` and `withPrefix`; another handle for `getRootVia` and
`setRootVia`). -/
inductive Op (Node Hash : Type) : Type 1 where
  | get (via : BoltStore Hash) (key : Bytes)
  | put (via : BoltStore Hash) (key : Bytes) (node : Node)
  | getRoot
  | setRoot (hash : Hash)
  | getRootVia (via : BoltStore Hash)
  | setRootVia (via : BoltStore Hash) (hash : Hash)
  | iterate (via : BoltStore Hash) (σ : Type)
      (f : σ → Bytes → Node → σ × Bool × Option Error) (s : σ)
  | list (via : BoltStore Hash) (limit : Int)
  | withPrefix (via : BoltStore Hash) (suffix : Bytes)

/-- The handle `m` and the engine after one operation. `Get`, `Iterate`, `List`
and `WithPrefix` return neither a handle nor an engine, and `GetRoot` through
another handle returns that handle only: they change neither `m` nor the
engine. `Put` and `SetRoot` through another handle change the engine only. -/
def Op.step {Node Hash : Type} (C : Codec Node Hash) (st : BoltStore Hash × DB) :
    Op Node Hash → BoltStore Hash × DB
  | Op.get _ _ => st
  | Op.put via key node => (st.1, (BoltStore.Put C via st.2 key node).2)
  | Op.getRoot => ((BoltStore.GetRoot C st.1 st.2).2.2, st.2)
  | Op.setRoot hash => (BoltStore.SetRoot C st.1 st.2 hash).2
  | Op.getRootVia _ => st
  | Op.setRootVia via hash => (st.1, (BoltStore.SetRoot C via st.2 hash).2.2)
  | Op.iterate _ _ _ _ => st
  | Op.list _ _ => st
  | Op.withPrefix _ _ => st

/-- The handle `m` and the engine after a sequence of operations. -/
def Op.run {Node Hash : Type} (C : Codec Node Hash) (st : BoltStore Hash × DB)
    (ops : List (Op Node Hash)) : BoltStore Hash × DB :=
  ops.foldl (Op.step C) st

/-- The discipline under which the handle with prefix `p` is the only writer of
its root: no root is set through another handle, no `Put` targets the root key
`p ‖ "root"`, and a hash given to `SetRoot` has a hexadecimal text that decodes
back to it. -/
def Op.Disciplined {Node Hash : Type} (C : Codec Node Hash) (p : Bytes) :
    Op Node Hash → Prop
  | Op.put via key _ => Concat via.pfx key ≠ Concat p rootKey
  | Op.setRoot hash => C.NewHashFromHex (C.Hex hash) = Except.ok hash
  | Op.setRootVia _ _ => False
  | _ => True

/-- The cache of `m` agrees with the engine: when it holds `h`, the root key of
the namespace of `m`, `prefix ‖ "root"`, holds the hexadecimal text of `h`. -/
def Coherent {Node Hash : Type} (C : Codec Node Hash) (m : BoltStore Hash) (db : DB) : Prop :=
  ∀ h, m.currentRoot = some h → db.tree.Get (Concat m.pfx rootKey) = some (C.Hex h)

/-- What the root key of the namespace of `m` holds, if anything, is the
hexadecimal text of a hash that decodes back to that hash, as `SetRoot` writes
it. -/
def RootTextWritten {Node Hash : Type} (C : Codec Node Hash) (m : BoltStore Hash) (db : DB) :
    Prop :=
  ∀ v, db.tree.Get (Concat m.pfx rootKey) = some v →
    ∃ h0, v = C.Hex h0 ∧ C.NewHashFromHex (C.Hex h0) = Except.ok h0

/-- A callback for `Iterate` that stops at the second key it is given. -/
def stopAtSecond (s : Nat) (_ : Bytes) (_ : SampleNode) : Nat × Bool × Option Error :=
  (s + 1, decide (s + 1 < 2), none)

/-- A callback for `Iterate` that fails with error 7 at the second key it is
given and asks to go on. -/
def failAtSecond (s : Nat) (_ : Bytes) (_ : SampleNode) : Nat × Bool × Option Error :=
  (s + 1, true, if s + 1 < 2 then none else some (Error.other 7))

/-- An open engine whose second value under the empty prefix does not decode. -/
def brokenDB : DB :=
  ⟨true, [([1], [1, 1, 1]), ([2], [9]), ([3], [1, 3, 3])]⟩

/-! ## The byte order -/

theorem bytesLt_irrefl (a : Bytes) : bytesLt a a = false := by
  induction a with
  | nil => rfl
  | cons x xs ih => simp [bytesLt, ih]

theorem bytesLt_trans : ∀ (a b c : Bytes),
    bytesLt a b = true → bytesLt b c = true → bytesLt a c = true
  | [], [], _, h, _ => by simp [bytesLt] at h
  | [], _ :: _, [], _, h => by simp [bytesLt] at h
  | [], _ :: _, _ :: _, _, _ => by simp [bytesLt]
  | _ :: _, [], _, h, _ => by simp [bytesLt] at h
  | _ :: _, _ :: _, [], _, h => by simp [bytesLt] at h
  | x :: xs, y :: ys, z :: zs, h1, h2 => by
    simp only [bytesLt] at h1 h2 ⊢
    by_cases hxy : x < y
    · by_cases hyz : y < z
      · have : x < z := by omega
        simp [this]
      · by_cases hzy : z < y
        · simp [hyz, hzy] at h2
        · have : x < z := by omega
          simp [this]
    · by_cases hyx : y < x
      · simp [hxy, hyx] at h1
      · simp only [hxy, hyx, if_false] at h1
        have hxy2 : x = y := by omega
        subst hxy2
        by_cases hxz : x < z
        · simp [hxz]
        · by_cases hzx : z < x
          · simp [hxz, hzx] at h2
          · simp only [hxz, hzx, if_false] at h2 ⊢
            exact bytesLt_trans xs ys zs h1 h2

theorem bytesLt_total : ∀ (a b : Bytes),
    bytesLt a b = false → a ≠ b → bytesLt b a = true
  | [], [], _, h => by simp at h
  | [], _ :: _, h, _ => by simp [bytesLt] at h
  | _ :: _, [], _, _ => by simp [bytesLt]
  | x :: xs, y :: ys, h1, h2 => by
    simp only [bytesLt] at h1 ⊢
    by_cases hxy : x < y
    · simp [hxy] at h1
    · by_cases hyx : y < x
      · simp [hyx]
      · simp only [hxy, hyx, if_false] at h1 ⊢
        have hxy2 : x = y := by omega
        subst hxy2
        exact bytesLt_total xs ys h1 (by simpa using h2)

theorem bytesLt_asymm (a b : Bytes) (h : bytesLt a b = true) : bytesLt b a = false := by
  by_contra hc
  have h2 : bytesLt b a = true := by simpa using hc
  have := bytesLt_trans a b a h h2
  simp [bytesLt_irrefl] at this

theorem bytesLt_append_left (p : Bytes) (a b : Bytes) :
    bytesLt (p ++ a) (p ++ b) = bytesLt a b := by
  induction p with
  | nil => rfl
  | cons x xs ih => simp [bytesLt, ih]

theorem HasPrefix_iff (s p : Bytes) : HasPrefix s p = true ↔ ∃ t, s = p ++ t := by
  unfold HasPrefix
  rw [List.isPrefixOf_iff_prefix]
  constructor
  · rintro ⟨t, ht⟩; exact ⟨t, ht.symm⟩
  · rintro ⟨t, ht⟩; exact ⟨t, ht.symm⟩

theorem HasPrefix_append (p t : Bytes) : HasPrefix (p ++ t) p = true :=
  (HasPrefix_iff _ _).2 ⟨t, rfl⟩

theorem TrimPrefix_append (p t : Bytes) : TrimPrefix (p ++ t) p = t := by
  simp [TrimPrefix, HasPrefix_append]

/-- A key below `p` does not begin with `p`. -/
theorem HasPrefix_of_bytesLt (k p : Bytes) (h : bytesLt k p = true) :
    HasPrefix k p = false := by
  by_contra hc
  have hp : HasPrefix k p = true := by simpa using hc
  obtain ⟨t, rfl⟩ := (HasPrefix_iff _ _).1 hp
  have h2 : bytesLt (p ++ t) (p ++ []) = true := by simpa using h
  rw [bytesLt_append_left] at h2
  cases t <;> simp [bytesLt] at h2

/-- Past the keys that begin with `p` no later key begins with `p`. -/
theorem HasPrefix_of_past : ∀ (p x y : Bytes), bytesLt x p = false →
    HasPrefix x p = false → bytesLt x y = true → HasPrefix y p = false
  | [], x, _, _, h2, _ => by simp [HasPrefix] at h2
  | _ :: _, [], _, h1, _, _ => by simp [bytesLt] at h1
  | _ :: _, _ :: _, [], _, _, h3 => by simp [bytesLt] at h3
  | a :: p, b :: x, c :: y, h1, h2, h3 => by
    simp only [bytesLt] at h1 h3
    simp only [HasPrefix, List.isPrefixOf, Bool.and_eq_false_imp, beq_iff_eq] at h2 ⊢
    intro hac
    subst hac
    by_cases hba : b < a
    · simp [hba] at h1
    · by_cases hab : a < b
      · have : ¬ b < a := hba
        simp [hab] at h3
        omega
      · have hab2 : a = b := by omega
        subst hab2
        simp only [lt_self_iff_false, if_false] at h1 h3
        exact HasPrefix_of_past p x y h1 (h2 rfl) h3

/-! ## The engine's bucket -/

theorem Bucket.Get_upsert_same (b : Bucket) (k v : Bytes) :
    (b.upsert k v).Get k = some v := by
  induction b with
  | nil => simp [Bucket.upsert, Bucket.Get]
  | cons e rest ih =>
    obtain ⟨k0, v0⟩ := e
    unfold Bucket.upsert
    by_cases h1 : bytesLt k k0 = true
    · simp [h1, Bucket.Get]
    · simp only [Bool.not_eq_true] at h1
      by_cases h2 : k = k0
      · subst h2
        simp [h1, Bucket.Get]
      · have h3 : ¬ k0 = k := fun h => h2 h.symm
        simp [h1, h2, h3, Bucket.Get, ih]

theorem Bucket.Get_upsert_other (b : Bucket) (k v key : Bytes) (h : key ≠ k) :
    (b.upsert k v).Get key = b.Get key := by
  have hk : ¬ k = key := fun h1 => h h1.symm
  induction b with
  | nil => simp [Bucket.upsert, Bucket.Get, hk]
  | cons e rest ih =>
    obtain ⟨k0, v0⟩ := e
    unfold Bucket.upsert
    by_cases h1 : bytesLt k k0 = true
    · simp [h1, Bucket.Get, hk]
    · simp only [Bool.not_eq_true] at h1
      by_cases h2 : k = k0
      · subst h2
        simp [h1, Bucket.Get, hk]
      · simp [h1, h2, Bucket.Get, ih]

theorem Bucket.mem_upsert (b : Bucket) (k v : Bytes) (e : Bytes × Bytes)
    (h : e ∈ b.upsert k v) : e = (k, v) ∨ e ∈ b := by
  induction b with
  | nil => simpa [Bucket.upsert] using h
  | cons e0 rest ih =>
    obtain ⟨k0, v0⟩ := e0
    unfold Bucket.upsert at h
    split_ifs at h with h1 h2
    · simpa using h
    · rcases List.mem_cons.1 h with h3 | h3
      · exact Or.inl h3
      · exact Or.inr (List.mem_cons_of_mem _ h3)
    · rcases List.mem_cons.1 h with h3 | h3
      · exact Or.inr (by simp [h3])
      · rcases ih h3 with h4 | h4
        · exact Or.inl h4
        · exact Or.inr (List.mem_cons_of_mem _ h4)

/-- A write keeps the keys strictly ascending. -/
theorem Bucket.Sorted_upsert (b : Bucket) (k v : Bytes) (h : b.Sorted) :
    (b.upsert k v).Sorted := by
  induction b with
  | nil => simp [Bucket.upsert, Bucket.Sorted]
  | cons e0 rest ih =>
    obtain ⟨k0, v0⟩ := e0
    unfold Bucket.Sorted at h ih ⊢
    rw [List.pairwise_cons] at h
    obtain ⟨hhead, htail⟩ := h
    unfold Bucket.upsert
    by_cases h1 : bytesLt k k0 = true
    · simp only [h1, if_true]
      refine List.Pairwise.cons ?_ (List.Pairwise.cons hhead htail)
      intro y hy
      rcases List.mem_cons.1 hy with hy | hy
      · rw [hy]; exact h1
      · exact bytesLt_trans _ _ _ h1 (hhead y hy)
    · simp only [Bool.not_eq_true] at h1
      by_cases h2 : k = k0
      · subst h2
        simp only [h1, if_true]
        exact List.Pairwise.cons hhead htail
      · simp only [h1, h2, if_false]
        have h3 : bytesLt k0 k = true :=
          bytesLt_total k k0 h1 h2
        refine List.Pairwise.cons ?_ (ih htail)
        intro y hy
        rcases Bucket.mem_upsert rest k v y hy with hy | hy
        · rw [hy]; exact h3
        · exact hhead y hy

/-- A write under a key that does not begin with `p` leaves the entries that
begin with `p` as they were. -/
theorem Bucket.filter_upsert (b : Bucket) (p k v : Bytes) (h : HasPrefix k p = false) :
    (b.upsert k v).filter (fun e => HasPrefix e.1 p) = b.filter (fun e => HasPrefix e.1 p) := by
  induction b with
  | nil => simp [Bucket.upsert, h]
  | cons e0 rest ih =>
    obtain ⟨k0, v0⟩ := e0
    unfold Bucket.upsert
    by_cases h1 : bytesLt k k0 = true
    · simp [h1, List.filter_cons, h]
    · simp only [Bool.not_eq_true] at h1
      by_cases h2 : k = k0
      · subst h2
        simp [h1, List.filter_cons, h]
      · simp [h1, h2, List.filter_cons, ih]

/-- From a position at or past `p` in a sorted bucket, the keys that begin with
`p` come first. -/
theorem Bucket.takeWhile_eq_filter (p : Bytes) (xs : Bucket) (hs : xs.Sorted)
    (hge : ∀ e ∈ xs, bytesLt e.1 p = false) :
    xs.takeWhile (fun e => HasPrefix e.1 p) = xs.filter (fun e => HasPrefix e.1 p) := by
  induction xs with
  | nil => rfl
  | cons e rest ih =>
    unfold Bucket.Sorted at hs ih
    rw [List.pairwise_cons] at hs
    obtain ⟨hhead, htail⟩ := hs
    have hrest : ∀ y ∈ rest, bytesLt y.1 p = false :=
      fun y hy => hge y (List.mem_cons_of_mem _ hy)
    by_cases hp : HasPrefix e.1 p = true
    · simp only [List.takeWhile_cons, List.filter_cons, hp, if_true]
      rw [ih htail hrest]
    · have hp2 : HasPrefix e.1 p = false := by simpa using hp
      have hnil : rest.filter (fun e => HasPrefix e.1 p) = [] := by
        rw [List.filter_eq_nil_iff]
        intro y hy
        have := HasPrefix_of_past p e.1 y.1 (hge e (List.mem_cons_self _ _)) hp2 (hhead y hy)
        simp [this]
      simp [List.takeWhile_cons, List.filter_cons, hp2, hnil]

/-- Seeking to `p` and advancing while the key begins with `p` visits exactly
the entries whose key begins with `p`, in the order of the bucket. -/
theorem Bucket.Seek_takeWhile (b : Bucket) (p : Bytes) (hs : b.Sorted) :
    (b.Seek p).takeWhile (fun e => HasPrefix e.1 p) = b.filter (fun e => HasPrefix e.1 p) := by
  induction b with
  | nil => rfl
  | cons e rest ih =>
    have hs0 := hs
    unfold Bucket.Sorted at hs ih
    rw [List.pairwise_cons] at hs
    obtain ⟨hhead, htail⟩ := hs
    by_cases h1 : bytesLt e.1 p = true
    · have h2 := HasPrefix_of_bytesLt e.1 p h1
      have hseek : Bucket.Seek (e :: rest) p = Bucket.Seek rest p := by
        simp [Bucket.Seek, List.dropWhile_cons, h1]
      rw [hseek, ih htail]
      simp [List.filter_cons, h2]
    · have h2 : bytesLt e.1 p = false := by simpa using h1
      have hseek : Bucket.Seek (e :: rest) p = e :: rest := by
        simp [Bucket.Seek, List.dropWhile_cons, h2]
      rw [hseek]
      apply Bucket.takeWhile_eq_filter p (e :: rest) hs0
      intro y hy
      rcases List.mem_cons.1 hy with hy | hy
      · rw [hy]; exact h2
      · by_contra hc
        have hc2 : bytesLt y.1 p = true := by simpa using hc
        have := bytesLt_trans _ _ _ (hhead y hy) hc2
        simp [h2] at this

/-! ## Transactions -/

section Claims

variable {Node Hash : Type}

theorem DB.View_opened {σ : Type} (db : DB) (fn : Bucket → σ → σ × Option Error) (s : σ)
    (h : db.opened = true) : db.View fn s = fn db.tree s := by
  simp [DB.View, h]

theorem DB.View_closed {σ : Type} (db : DB) (fn : Bucket → σ → σ × Option Error) (s : σ)
    (h : db.opened = false) : db.View fn s = (s, some Error.ErrDatabaseNotOpen) := by
  simp [DB.View, h]

/-- A committed `Bucket.Put` in an `Update`: the database was open and the
bucket afterwards is the upsert. -/
theorem DB.Update_Put_ok (db db1 : DB) (key value : Bytes)
    (h : db.Update (fun b => b.Put key value) = (db1, none)) :
    db.opened = true ∧ db1 = { db with tree := db.tree.upsert key value } := by
  unfold DB.Update Bucket.Put at h
  by_cases ho : db.opened = true
  · simp only [ho, if_true] at h
    split_ifs at h <;> simp_all
  · simp [ho] at h

/-- An `Update` that returns an error leaves the database as it was. -/
theorem DB.Update_Put_error (db db1 : DB) (key value : Bytes) (e : Error)
    (h : db.Update (fun b => b.Put key value) = (db1, some e)) : db1 = db := by
  unfold DB.Update Bucket.Put at h
  by_cases ho : db.opened = true
  · simp only [ho, if_true] at h
    split_ifs at h <;> simp_all
  · simp only [ho] at h
    simp at h
    exact h.1.symm

theorem BoltStore.Put_ok (C : Codec Node Hash) (m : BoltStore Hash) (db db1 : DB)
    (k : Bytes) (n : Node) (h : BoltStore.Put C m db k n = (none, db1)) :
    db.opened = true ∧
      db1 = { db with tree := db.tree.upsert (Concat m.pfx k) (C.Value n) } := by
  apply DB.Update_Put_ok
  unfold BoltStore.Put at h
  simp only at h
  rw [Prod.ext_iff] at h ⊢
  exact ⟨h.2, h.1⟩

theorem BoltStore.SetRoot_ok (C : Codec Node Hash) (m m1 : BoltStore Hash) (db db1 : DB)
    (hash : Hash) (h : BoltStore.SetRoot C m db hash = (none, m1, db1)) :
    db.opened = true ∧ m1 = { m with currentRoot := some hash } ∧
      db1 = { db with tree := db.tree.upsert rootKey (C.Hex hash) } := by
  unfold BoltStore.SetRoot at h
  simp only at h
  split at h
  · simp at h
  · rename_i db2 hupd
    simp only [Prod.mk.injEq, true_and] at h
    obtain ⟨hm, hdb⟩ := h
    subst hm hdb
    have := DB.Update_Put_ok db db2 rootKey (C.Hex hash) hupd
    exact ⟨this.1, rfl, this.2⟩

theorem BoltStore.Get_opened (C : Codec Node Hash) (m : BoltStore Hash) (db : DB)
    (k : Bytes) (h : db.opened = true) :
    BoltStore.Get C m db k =
      match db.tree.Get (Concat m.pfx k) with
      | none => Except.error Error.ErrNotFound
      | some v =>
        match C.NewNodeFromBytes v with
        | Except.ok n => Except.ok n
        | Except.error e => Except.error (Error.decode e) := by
  unfold BoltStore.Get
  rw [DB.View_opened _ _ _ h]
  cases hg : db.tree.Get (Concat m.pfx k) <;> simp

theorem BoltStore.GetRoot_populated (C : Codec Node Hash) (m : BoltStore Hash) (db : DB)
    (c : Hash) (h : m.currentRoot = some c) :
    BoltStore.GetRoot C m db = (some c, none, m) := by
  unfold BoltStore.GetRoot
  rw [h]

theorem BoltStore.GetRoot_unpopulated (C : Codec Node Hash) (m : BoltStore Hash) (db : DB)
    (h : m.currentRoot = none) (ho : db.opened = true) :
    BoltStore.GetRoot C m db =
      match db.tree.Get rootKey with
      | none => (none, some Error.ErrNotFound, m)
      | some v =>
        match C.NewHashFromHex v with
        | Except.error e => (none, some (Error.decode e), m)
        | Except.ok hash => (some hash, none, { m with currentRoot := some hash }) := by
  obtain ⟨p, r⟩ := m
  simp only at h
  subst h
  unfold BoltStore.GetRoot
  simp only
  rw [DB.View_opened _ _ _ ho]
  cases hg : db.tree.Get rootKey with
  | none => simp
  | some v => cases hd : C.NewHashFromHex v <;> simp [hd]

/-! ## Point reads and writes -/

/-- C1. Put/Get round trip: for every handle, key `k` and node `n` whose
serialised bytes deserialise back to `n`, after a successful `Put(k, n)` on any
engine state (with or without a value already stored under `k`), `Get(k)` on
the same handle succeeds and returns `n`. -/
theorem Put_Get_round_trip (C : Codec Node Hash) (m : BoltStore Hash) (db db1 : DB)
    (k : Bytes) (n : Node)
    (hcodec : C.NewNodeFromBytes (C.Value n) = Except.ok n)
    (hput : BoltStore.Put C m db k n = (none, db1)) :
    BoltStore.Get C m db1 k = Except.ok n := by
  obtain ⟨ho, hdb⟩ := BoltStore.Put_ok C m db db1 k n hput
  have ho1 : db1.opened = true := by rw [hdb]; exact ho
  rw [BoltStore.Get_opened C m db1 k ho1, hdb]
  simp only
  rw [Bucket.Get_upsert_same]
  simp only [hcodec]

/-- C2. On an open engine, `Get` fails with `ErrNotFound` exactly when the
bucket holds no value under `prefix ‖ key`; when a value is present, `Get`
returns what the node decoder returns for those bytes: the node, or the
decoder's own error. -/
theorem Get_NotFound_iff_absent (C : Codec Node Hash) (m : BoltStore Hash) (db : DB)
    (k : Bytes) (hopen : db.opened = true) :
    (BoltStore.Get C m db k = Except.error Error.ErrNotFound ↔
        db.tree.Get (m.pfx ++ k) = none) ∧
      (∀ v, db.tree.Get (m.pfx ++ k) = some v →
        (∀ n, C.NewNodeFromBytes v = Except.ok n → BoltStore.Get C m db k = Except.ok n) ∧
        (∀ e, C.NewNodeFromBytes v = Except.error e →
          BoltStore.Get C m db k = Except.error (Error.decode e))) := by
  rw [BoltStore.Get_opened C m db k hopen]
  unfold Concat
  constructor
  · cases hg : db.tree.Get (m.pfx ++ k) with
    | none => simp
    | some v => cases hd : C.NewNodeFromBytes v <;> simp [hd]
  · intro v hv
    rw [hv]
    constructor
    · intro n hn; simp [hn]
    · intro e he; simp [he]

/-- C3. Prefix isolation for point reads: for two handles over the same engine
with distinct prefixes and every key `k`, a successful `Put(k, n)` through the
first handle does not change the result of `Get(k)` through the second; if
nothing was stored under `k` in the second handle's namespace, `Get(k)` through
it still returns `ErrNotFound`. -/
theorem Put_Get_isolated (C : Codec Node Hash) (m1 m2 : BoltStore Hash) (db db1 : DB)
    (k : Bytes) (n : Node) (hne : m1.pfx ≠ m2.pfx)
    (hput : BoltStore.Put C m1 db k n = (none, db1)) :
    BoltStore.Get C m2 db1 k = BoltStore.Get C m2 db k ∧
      (db.tree.Get (m2.pfx ++ k) = none →
        BoltStore.Get C m2 db1 k = Except.error Error.ErrNotFound) := by
  obtain ⟨ho, hdb⟩ := BoltStore.Put_ok C m1 db db1 k n hput
  have ho1 : db1.opened = true := by rw [hdb]; exact ho
  have hkey : Concat m2.pfx k ≠ Concat m1.pfx k := by
    unfold Concat
    intro h
    exact hne (List.append_cancel_right h).symm
  have hget : db1.tree.Get (Concat m2.pfx k) = db.tree.Get (Concat m2.pfx k) := by
    rw [hdb]
    exact Bucket.Get_upsert_other _ _ _ _ hkey
  rw [BoltStore.Get_opened C m2 db1 k ho1, BoltStore.Get_opened C m2 db k ho, hget]
  refine ⟨rfl, ?_⟩
  intro hnone
  unfold Concat
  rw [hnone]

/-- Witness for C1: overwriting key `0x01` of the sample engine, then reading it. -/
theorem Put_Get_round_trip_witness :
    sampleCodec.NewNodeFromBytes (sampleCodec.Value (SampleNode.leaf 7 7))
        = Except.ok (SampleNode.leaf 7 7) ∧
      BoltStore.Put sampleCodec rootHandle sampleDB [1] (SampleNode.leaf 7 7) =
        (none, ⟨true, [([1], [1, 7, 7]), ([2], [1, 2, 2]), ([120, 1], [1, 3, 3])]⟩) ∧
      BoltStore.Get sampleCodec rootHandle
        ⟨true, [([1], [1, 7, 7]), ([2], [1, 2, 2]), ([120, 1], [1, 3, 3])]⟩ [1] =
        Except.ok (SampleNode.leaf 7 7) :=
  ⟨rfl, rfl, Put_Get_round_trip sampleCodec rootHandle sampleDB _ [1] (SampleNode.leaf 7 7)
    rfl rfl⟩

/-- Witness for C2 on the sample engine, at key `0x03`. -/
theorem Get_NotFound_iff_absent_witness :
    sampleDB.opened = true ∧
      (BoltStore.Get sampleCodec rootHandle sampleDB [3] = Except.error Error.ErrNotFound ↔
        sampleDB.tree.Get (rootHandle.pfx ++ [3]) = none) :=
  ⟨rfl, (Get_NotFound_iff_absent sampleCodec rootHandle sampleDB [3] rfl).1⟩

/-- Witness for C3: a write of key `0x03` through namespace `"x"`, read through
the empty prefix. -/
theorem Put_Get_isolated_witness :
    xHandle.pfx ≠ rootHandle.pfx ∧
      BoltStore.Put sampleCodec xHandle sampleDB [3] (SampleNode.leaf 7 7) =
        (none, ⟨true, [([1], [1, 1, 1]), ([2], [1, 2, 2]), ([120, 1], [1, 3, 3]),
          ([120, 3], [1, 7, 7])]⟩) ∧
      BoltStore.Get sampleCodec rootHandle
        ⟨true, [([1], [1, 1, 1]), ([2], [1, 2, 2]), ([120, 1], [1, 3, 3]),
          ([120, 3], [1, 7, 7])]⟩ [3] = Except.error Error.ErrNotFound :=
  ⟨by decide, rfl,
    (Put_Get_isolated sampleCodec xHandle rootHandle sampleDB _ [3] (SampleNode.leaf 7 7)
      (by decide) rfl).2 rfl⟩

/-! ## The root pointer -/

/-- C5. Root cache hit: after a successful `SetRoot(h)`, `GetRoot` on the same
handle returns `h` whatever the engine then is; every handle whose cache holds
`c` returns `c` from `GetRoot` whatever the engine is, and stays as it is; and
a `GetRoot` that succeeds leaves the handle's cache holding the hash it
returned, so that every later `GetRoot` returns it whatever the engine is. -/
theorem GetRoot_cache_hit (C : Codec Node Hash) (m m1 : BoltStore Hash) (db db1 : DB)
    (h : Hash) (hset : BoltStore.SetRoot C m db h = (none, m1, db1)) :
    (∀ db2 : DB, BoltStore.GetRoot C m1 db2 = (some h, none, m1)) ∧
      (∀ (m0 : BoltStore Hash) (c : Hash), m0.currentRoot = some c →
        ∀ db2 : DB, BoltStore.GetRoot C m0 db2 = (some c, none, m0)) ∧
      (∀ (m0 m2 : BoltStore Hash) (db0 : DB) (r : Option Hash),
        BoltStore.GetRoot C m0 db0 = (r, none, m2) →
        ∃ c, r = some c ∧ m2.currentRoot = some c ∧
          ∀ db2 : DB, BoltStore.GetRoot C m2 db2 = (some c, none, m2)) := by
  obtain ⟨_, hm1, _⟩ := BoltStore.SetRoot_ok C m m1 db db1 h hset
  refine ⟨?_, ?_, ?_⟩
  · intro db2
    exact BoltStore.GetRoot_populated C m1 db2 h (by rw [hm1])
  · intro m0 c hc db2
    exact BoltStore.GetRoot_populated C m0 db2 c hc
  · intro m0 m2 db0 r hget
    cases hcur : m0.currentRoot with
    | some c =>
      rw [BoltStore.GetRoot_populated C m0 db0 c hcur] at hget
      simp only [Prod.mk.injEq, true_and] at hget
      obtain ⟨hr, hm⟩ := hget
      subst hr hm
      exact ⟨c, rfl, hcur, fun db2 => BoltStore.GetRoot_populated C m0 db2 c hcur⟩
    | none =>
      by_cases ho : db0.opened = true
      · rw [BoltStore.GetRoot_unpopulated C m0 db0 hcur ho] at hget
        cases hg : db0.tree.Get rootKey with
        | none => simp [hg] at hget
        | some v =>
          cases hd : C.NewHashFromHex v with
          | error e => simp [hg, hd] at hget
          | ok c =>
            simp only [hg, hd, Prod.mk.injEq, true_and] at hget
            obtain ⟨hr, hm⟩ := hget
            subst hr hm
            exact ⟨c, rfl, rfl, fun db2 => BoltStore.GetRoot_populated C _ db2 c rfl⟩
      · have hc : db0.opened = false := by simpa using ho
        unfold BoltStore.GetRoot at hget
        rw [hcur] at hget
        simp only at hget
        rw [DB.View_closed _ _ _ hc] at hget
        simp at hget

/-- Witness for C5: after `SetRoot` on the sample engine, `GetRoot` on a closed,
empty engine still returns the hash. -/
theorem GetRoot_cache_hit_witness :
    BoltStore.SetRoot sampleCodec rootHandle sampleDB [1, 2] =
        (none, ⟨[], some [1, 2]⟩,
          ⟨true, [([1], [1, 1, 1]), ([2], [1, 2, 2]), ([114, 111, 111, 116], [48, 49, 48, 50]),
            ([120, 1], [1, 3, 3])]⟩) ∧
      BoltStore.GetRoot sampleCodec (⟨[], some [1, 2]⟩ : BoltStore Bytes) ⟨false, []⟩ =
        (some [1, 2], none, ⟨[], some [1, 2]⟩) :=
  ⟨rfl, (GetRoot_cache_hit sampleCodec rootHandle _ sampleDB _ [1, 2] rfl).1 ⟨false, []⟩⟩

/-- C6, the code at a handle with prefix `"x"`: a successful `SetRoot` writes the
hexadecimal text under the key `"root"` and leaves the key `"x" ‖ "root"`
absent; and `GetRoot` on a handle with prefix `"x"` and no cached root, over an
engine that holds a root under `"x" ‖ "root"` only, reads `"root"` and fails
with `ErrNotFound`. -/
theorem root_key_not_namespaced :
    BoltStore.SetRoot sampleCodec xHandle ⟨true, []⟩ [1, 2] =
        (none, ⟨[120], some [1, 2]⟩, ⟨true, [(rootKey, sampleCodec.Hex [1, 2])]⟩) ∧
      Bucket.Get [(rootKey, sampleCodec.Hex [1, 2])] (xHandle.pfx ++ rootKey) = none ∧
      BoltStore.GetRoot sampleCodec xHandle
        ⟨true, [(xHandle.pfx ++ rootKey, sampleCodec.Hex [1, 2])]⟩ =
        (none, some Error.ErrNotFound, xHandle) :=
  ⟨rfl, rfl, rfl⟩

/-- C7, the code at a derived handle: after the handle with the empty prefix
has set a root, the handle newly derived from it by `WithPrefix("x")` has no
cached root, yet its `GetRoot` returns the parent's root and caches it. -/
theorem GetRoot_derived_handle_sees_parent_root :
    BoltStore.SetRoot sampleCodec rootHandle ⟨true, []⟩ [1, 2] =
        (none, ⟨[], some [1, 2]⟩, ⟨true, [(rootKey, sampleCodec.Hex [1, 2])]⟩) ∧
      BoltStore.WithPrefix (⟨[], some [1, 2]⟩ : BoltStore Bytes) [120] = xHandle ∧
      xHandle.currentRoot = none ∧
      BoltStore.GetRoot sampleCodec xHandle ⟨true, [(rootKey, sampleCodec.Hex [1, 2])]⟩ =
        (some [1, 2], none, ⟨[120], some [1, 2]⟩) :=
  ⟨rfl, rfl, rfl, rfl⟩

/-- C8. Root durability, last write wins: after successful `SetRoot(H1)` and
`SetRoot(H2)` on a handle, with the hexadecimal text of `H2` decoding back to
`H2`, `GetRoot` on that handle returns `H2`, and so does `GetRoot` on a new
handle with the same prefix and no cached root over the same engine; and over
an open engine that already holds the hexadecimal text of `H3` as its root,
`NewBoltStorage` returns a handle whose first `GetRoot` returns `H3`. -/
theorem root_last_write_wins_and_durable (C : Codec Node Hash) (m m1 m2 : BoltStore Hash)
    (db db1 db2 db3 : DB) (H1 H2 H3 : Hash)
    (hcodec2 : C.NewHashFromHex (C.Hex H2) = Except.ok H2)
    (hcodec3 : C.NewHashFromHex (C.Hex H3) = Except.ok H3)
    (hset1 : BoltStore.SetRoot C m db H1 = (none, m1, db1))
    (hset2 : BoltStore.SetRoot C m1 db1 H2 = (none, m2, db2))
    (hopen3 : db3.opened = true)
    (hseed3 : db3.tree.Get rootKey = some (C.Hex H3)) :
    BoltStore.GetRoot C m2 db2 = (some H2, none, m2) ∧
      BoltStore.GetRoot C ⟨m.pfx, none⟩ db2 = (some H2, none, ⟨m.pfx, some H2⟩) ∧
      (NewBoltStorage db3 : DB × Except Error (BoltStore Hash)) =
        (db3, Except.ok ⟨[], none⟩) ∧
      BoltStore.GetRoot C ⟨[], none⟩ db3 = (some H3, none, ⟨[], some H3⟩) := by
  obtain ⟨_, _, _⟩ := BoltStore.SetRoot_ok C m m1 db db1 H1 hset1
  obtain ⟨ho1, hm2, hdb2⟩ := BoltStore.SetRoot_ok C m1 m2 db1 db2 H2 hset2
  have ho2 : db2.opened = true := by rw [hdb2]; exact ho1
  have hget2 : db2.tree.Get rootKey = some (C.Hex H2) := by
    rw [hdb2]; exact Bucket.Get_upsert_same _ _ _
  refine ⟨?_, ?_, ?_, ?_⟩
  · exact BoltStore.GetRoot_populated C m2 db2 H2 (by rw [hm2])
  · rw [BoltStore.GetRoot_unpopulated C ⟨m.pfx, none⟩ db2 rfl ho2, hget2]
    simp only [hcodec2]
  · obtain ⟨o, t⟩ := db3
    simp only at hopen3
    subst hopen3
    simp [NewBoltStorage, DB.Update]
  · rw [BoltStore.GetRoot_unpopulated C ⟨[], none⟩ db3 rfl hopen3, hseed3]
    simp only [hcodec3]

/-- Witness for C8: two roots set through namespace `"x"` on the sample engine,
and an engine seeded with a root before the handle is made. -/
theorem root_last_write_wins_and_durable_witness :
    BoltStore.GetRoot sampleCodec (⟨[120], none⟩ : BoltStore Bytes)
        ⟨true, [([1], [1, 1, 1]), ([2], [1, 2, 2]), (rootKey, [48, 51, 48, 52]),
          ([120, 1], [1, 3, 3])]⟩ = (some [3, 4], none, ⟨[120], some [3, 4]⟩) ∧
      BoltStore.GetRoot sampleCodec (⟨[], none⟩ : BoltStore Bytes)
        ⟨true, [(rootKey, [49, 54])]⟩ = (some [22], none, ⟨[], some [22]⟩) :=
  have h := root_last_write_wins_and_durable sampleCodec xHandle ⟨[120], some [1, 2]⟩
    ⟨[120], some [3, 4]⟩ sampleDB
    ⟨true, [([1], [1, 1, 1]), ([2], [1, 2, 2]), (rootKey, [48, 49, 48, 50]),
      ([120, 1], [1, 3, 3])]⟩
    ⟨true, [([1], [1, 1, 1]), ([2], [1, 2, 2]), (rootKey, [48, 51, 48, 52]),
      ([120, 1], [1, 3, 3])]⟩
    ⟨true, [(rootKey, [49, 54])]⟩ [1, 2] [3, 4] [22] rfl rfl rfl rfl rfl rfl
  ⟨h.2.1, h.2.2.2⟩

end Claims

/-! ## Scans -/

section Scans

variable {Node Hash : Type}

/-- The loop of `List` stops at the first key that does not begin with the
prefix: only the leading run of keys that begin with it matters. -/
theorem listLoop_takeWhile (C : Codec Node Hash) (p : Bytes) (limit : Int)
    (xs : List (Bytes × Bytes)) : ∀ (res : List (KV Node)) (c : Int),
    listLoop C p limit xs res c =
      listLoop C p limit (xs.takeWhile (fun e => HasPrefix e.1 p)) res c := by
  induction xs with
  | nil => intro res c; rfl
  | cons e rest ih =>
    intro res c
    obtain ⟨k, v⟩ := e
    by_cases hp : HasPrefix k p = true
    · simp only [List.takeWhile_cons, hp, if_true]
      unfold listLoop
      simp only [hp, if_true]
      cases hd : C.NewNodeFromBytes v with
      | error e => rfl
      | ok n =>
        simp only
        split_ifs
        · rfl
        · exact ih _ _
    · simp only [List.takeWhile_cons, hp]
      unfold listLoop
      simp [hp]

/-- The loop of `Iterate` stops at the first key that does not begin with the
prefix. -/
theorem iterateLoop_takeWhile {σ : Type} (C : Codec Node Hash) (p : Bytes)
    (f : σ → Bytes → Node → σ × Bool × Option Error)
    (xs : List (Bytes × Bytes)) : ∀ (s : σ),
    iterateLoop C p f xs s =
      iterateLoop C p f (xs.takeWhile (fun e => HasPrefix e.1 p)) s := by
  induction xs with
  | nil => intro s; rfl
  | cons e rest ih =>
    intro s
    obtain ⟨k, v⟩ := e
    by_cases hp : HasPrefix k p = true
    · simp only [List.takeWhile_cons, hp, if_true]
      unfold iterateLoop
      simp only [hp, if_true]
      cases hd : C.NewNodeFromBytes v with
      | error e => rfl
      | ok n =>
        simp only
        rcases hf : f s (Clone (TrimPrefix k p)) n with ⟨s1, cont, err⟩
        cases err with
        | some e => rfl
        | none =>
          simp only
          cases cont with
          | false => rfl
          | true => exact ih s1
    · simp only [List.takeWhile_cons, hp]
      unfold iterateLoop
      simp [hp]

/-- On a sorted bucket `List` scans the entries whose key begins with the
handle's prefix. -/
theorem BoltStore.List_eq_filter (C : Codec Node Hash) (m : BoltStore Hash) (db : DB)
    (limit : Int) (hs : db.tree.Sorted) :
    BoltStore.List C m db limit =
      db.View (fun b res =>
        listLoop C m.pfx limit (b.filter (fun e => HasPrefix e.1 m.pfx)) res 0) [] := by
  unfold BoltStore.List DB.View
  split_ifs
  · show listLoop C m.pfx limit (db.tree.Seek m.pfx) [] 0 = _
    rw [listLoop_takeWhile, Bucket.Seek_takeWhile _ _ hs]
  · rfl

/-- On a sorted bucket `Iterate` scans the entries whose key begins with the
handle's prefix. -/
theorem BoltStore.Iterate_eq_filter {σ : Type} (C : Codec Node Hash) (m : BoltStore Hash)
    (db : DB) (f : σ → Bytes → Node → σ × Bool × Option Error) (s : σ)
    (hs : db.tree.Sorted) :
    BoltStore.Iterate C m db f s =
      db.View (fun b s0 =>
        iterateLoop C m.pfx f (b.filter (fun e => HasPrefix e.1 m.pfx)) s0) s := by
  unfold BoltStore.Iterate DB.View
  split_ifs
  · show iterateLoop C m.pfx f (db.tree.Seek m.pfx) s = _
    rw [iterateLoop_takeWhile, Bucket.Seek_takeWhile _ _ hs]
  · rfl

/-- The entries collected before the loop starts stay in front of the result. -/
theorem listLoop_acc (C : Codec Node Hash) (p : Bytes) (limit : Int)
    (xs : List (Bytes × Bytes)) : ∀ (res : List (KV Node)) (c : Int),
    listLoop C p limit xs res c =
      (res ++ (listLoop C p limit xs [] c).1, (listLoop C p limit xs [] c).2) := by
  induction xs with
  | nil => intro res c; simp [listLoop]
  | cons e rest ih =>
    intro res c
    obtain ⟨k, v⟩ := e
    unfold listLoop
    by_cases hp : HasPrefix k p = true
    · simp only [hp, if_true]
      cases hd : C.NewNodeFromBytes v with
      | error e => simp
      | ok n =>
        simp only
        split_ifs
        · simp
        · rw [ih (res ++ _) _, ih ([] ++ _) _]
          simp
    · simp [hp]

/-- With limit 0 and every scanned value decoding, the loop returns one pair
per entry of the leading run of keys that begin with the prefix. -/
theorem listLoop_zero (C : Codec Node Hash) (p : Bytes)
    (xs : List (Bytes × Bytes))
    (hdec : ∀ e ∈ xs, HasPrefix e.1 p = true → ∃ n, C.NewNodeFromBytes e.2 = Except.ok n) :
    ∀ (res : List (KV Node)) (c : Int),
    listLoop C p 0 xs res c =
      (res ++ (xs.takeWhile (fun e => HasPrefix e.1 p)).filterMap (entryKV C p), none) := by
  induction xs with
  | nil => intro res c; simp [listLoop]
  | cons e rest ih =>
    intro res c
    obtain ⟨k, v⟩ := e
    have hrest : ∀ e ∈ rest, HasPrefix e.1 p = true →
        ∃ n, C.NewNodeFromBytes e.2 = Except.ok n :=
      fun e he => hdec e (List.mem_cons_of_mem _ he)
    unfold listLoop
    by_cases hp : HasPrefix k p = true
    · obtain ⟨n, hn⟩ := hdec (k, v) (List.mem_cons_self _ _) hp
      simp only at hn
      simp only [hp, if_true, hn, List.takeWhile_cons]
      rw [if_neg (by simp), ih hrest]
      simp [entryKV, hn, Clone]
    · simp [hp, List.takeWhile_cons]

/-- A positive limit cuts the result of the unbounded loop. -/
theorem listLoop_limit (C : Codec Node Hash) (p : Bytes) (limit : Int) (hl : 0 < limit)
    (xs : List (Bytes × Bytes)) : ∀ (c c0 : Int) (L : List (KV Node)), c < limit →
    listLoop C p 0 xs [] c0 = (L, none) →
    listLoop C p limit xs [] c = (L.take (limit - c).toNat, none) := by
  induction xs with
  | nil =>
    intro c c0 L _ h0
    simp only [listLoop, Prod.mk.injEq, and_true] at h0
    subst h0
    simp [listLoop]
  | cons e rest ih =>
    intro c c0 L hc h0
    obtain ⟨k, v⟩ := e
    unfold listLoop at h0 ⊢
    by_cases hp : HasPrefix k p = true
    · simp only [hp, if_true] at h0 ⊢
      cases hd : C.NewNodeFromBytes v with
      | error e => simp [hd] at h0
      | ok n =>
        simp only [hd] at h0 ⊢
        rw [if_neg (by simp), listLoop_acc] at h0
        simp only [List.nil_append, Prod.mk.injEq] at h0
        obtain ⟨hL, herr⟩ := h0
        have hrest : listLoop C p 0 rest [] (c0 + 1) =
            ((listLoop C p 0 rest [] (c0 + 1)).1, none) := by
          rw [← herr]
        obtain ⟨t, ht⟩ : ∃ t : Nat, (limit - c).toNat = t + 1 :=
          ⟨(limit - c).toNat - 1, by omega⟩
        by_cases hstop : limit ≠ 0 ∧ c + 1 ≥ limit
        · rw [if_pos hstop]
          have ht0 : t = 0 := by omega
          rw [← hL, ht, ht0]
          simp
        · rw [if_neg hstop, listLoop_acc]
          have hc1 : c + 1 < limit := by
            by_contra hcon
            exact hstop ⟨by omega, by omega⟩
          rw [ih (c + 1) (c0 + 1) _ hc1 hrest]
          have ht1 : (limit - (c + 1)).toNat = t := by omega
          rw [← hL, ht, ht1]
          simp
    · simp only [hp] at h0 ⊢
      simp only [Bool.false_eq_true, if_false, Prod.mk.injEq, and_true] at h0 ⊢
      subst h0
      simp

end Scans

/-! ## Claims about scans -/

section ScanClaims

variable {Node Hash : Type}

theorem length_filterMap_of_isSome {α β : Type} (g : α → Option β) (l : List α)
    (h : ∀ a ∈ l, ∃ b, g a = some b) : (l.filterMap g).length = l.length := by
  induction l with
  | nil => rfl
  | cons a rest ih =>
    obtain ⟨b, hb⟩ := h a (List.mem_cons_self _ _)
    rw [List.filterMap_cons_some hb]
    simp [ih (fun x hx => h x (List.mem_cons_of_mem _ hx))]

/-- C4, as amended. Prefix isolation for scans: on a sorted bucket, a
successful `Put(k, n)` through a handle with prefix `P2` is not observed by a
handle with prefix `P1` whenever `P1` is not a leading part of `P2 ‖ k`: `List`
(for every limit) and `Iterate` (for every callback) through the `P1` handle
give what they gave before the write, and no listed key names the written
entry. -/
theorem scan_isolation (C : Codec Node Hash) (m1 m2 : BoltStore Hash) (db db1 : DB)
    (k : Bytes) (n : Node) (hs : db.tree.Sorted)
    (hpre : HasPrefix (m2.pfx ++ k) m1.pfx = false)
    (hput : BoltStore.Put C m2 db k n = (none, db1)) :
    (∀ limit : Int, BoltStore.List C m1 db1 limit = BoltStore.List C m1 db limit) ∧
      (∀ (σ : Type) (f : σ → Bytes → Node → σ × Bool × Option Error) (s : σ),
        BoltStore.Iterate C m1 db1 f s = BoltStore.Iterate C m1 db f s) ∧
      (∀ (limit : Int) (kv : KV Node), kv ∈ (BoltStore.List C m1 db1 limit).1 →
        m1.pfx ++ kv.K ≠ m2.pfx ++ k) := by
  obtain ⟨ho, hdb⟩ := BoltStore.Put_ok C m2 db db1 k n hput
  have hs1 : db1.tree.Sorted := by
    rw [hdb]; exact Bucket.Sorted_upsert _ _ _ hs
  have hfilter : db1.tree.filter (fun e => HasPrefix e.1 m1.pfx) =
      db.tree.filter (fun e => HasPrefix e.1 m1.pfx) := by
    rw [hdb]; exact Bucket.filter_upsert _ _ _ _ hpre
  have ho1 : db1.opened = true := by rw [hdb]; exact ho
  refine ⟨?_, ?_, ?_⟩
  · intro limit
    rw [BoltStore.List_eq_filter C m1 db1 limit hs1, BoltStore.List_eq_filter C m1 db limit hs,
      DB.View_opened _ _ _ ho1, DB.View_opened _ _ _ ho, hfilter]
  · intro σ f s
    rw [BoltStore.Iterate_eq_filter C m1 db1 f s hs1, BoltStore.Iterate_eq_filter C m1 db f s hs,
      DB.View_opened _ _ _ ho1, DB.View_opened _ _ _ ho, hfilter]
  · intro limit kv _ heq
    have : HasPrefix (m2.pfx ++ k) m1.pfx = true := by
      rw [← heq]; exact HasPrefix_append _ _
    rw [hpre] at this
    exact Bool.noConfusion this

/-- C9. `List(0)` is complete, stripped and sorted: on an open engine with a
sorted bucket in which every value under the handle's prefix `P` decodes,
`List(0)` succeeds; its result holds the pair `(k, n)` exactly when the bucket
holds an entry `(P ‖ k, v)` with `v` decoding to `n`; it has one pair per entry
whose key begins with `P`; and its keys are strictly ascending. -/
theorem List_zero_complete_sorted (C : Codec Node Hash) (m : BoltStore Hash) (db : DB)
    (hopen : db.opened = true) (hs : db.tree.Sorted)
    (hdec : ∀ e ∈ db.tree, HasPrefix e.1 m.pfx = true →
      ∃ n, C.NewNodeFromBytes e.2 = Except.ok n) :
    ∃ L : List (KV Node), BoltStore.List C m db 0 = (L, none) ∧
      (∀ (k : Bytes) (n : Node), (⟨k, n⟩ : KV Node) ∈ L ↔
        ∃ v, (m.pfx ++ k, v) ∈ db.tree ∧ C.NewNodeFromBytes v = Except.ok n) ∧
      L.length = (db.tree.filter (fun e => HasPrefix e.1 m.pfx)).length ∧
      (L.map KV.K).Pairwise (fun a b => bytesLt a b = true) := by
  have hdecF : ∀ e ∈ db.tree.filter (fun e => HasPrefix e.1 m.pfx),
      HasPrefix e.1 m.pfx = true → ∃ n, C.NewNodeFromBytes e.2 = Except.ok n :=
    fun e he hp => hdec e (List.mem_of_mem_filter he) hp
  have hall : ∀ e ∈ db.tree.filter (fun e => HasPrefix e.1 m.pfx),
      HasPrefix e.1 m.pfx = true := by
    intro e he
    simpa using (List.mem_filter.1 he).2
  have htw : (db.tree.filter (fun e => HasPrefix e.1 m.pfx)).takeWhile
      (fun e => HasPrefix e.1 m.pfx) = db.tree.filter (fun e => HasPrefix e.1 m.pfx) := by
    rw [List.takeWhile_eq_self_iff]
    intro e he
    exact hall e he
  refine ⟨(db.tree.filter (fun e => HasPrefix e.1 m.pfx)).filterMap (entryKV C m.pfx),
    ?_, ?_, ?_, ?_⟩
  · rw [BoltStore.List_eq_filter C m db 0 hs, DB.View_opened _ _ _ hopen]
    show listLoop C m.pfx 0 _ [] 0 = _
    rw [listLoop_zero C m.pfx _ hdecF, htw]
    simp
  · intro k n
    rw [List.mem_filterMap]
    constructor
    · rintro ⟨⟨k0, v0⟩, he, hkv⟩
      have hp := hall _ he
      obtain ⟨t, ht⟩ := (HasPrefix_iff _ _).1 hp
      simp only at ht
      subst ht
      unfold entryKV at hkv
      simp only at hkv
      cases hd : C.NewNodeFromBytes v0 with
      | error e => simp [hd] at hkv
      | ok n0 =>
        simp only [hd, Option.some.injEq, KV.mk.injEq, TrimPrefix_append] at hkv
        obtain ⟨hk, hn⟩ := hkv
        subst hk hn
        exact ⟨v0, List.mem_of_mem_filter he, hd⟩
    · rintro ⟨v, hmem, hd⟩
      refine ⟨(m.pfx ++ k, v), ?_, ?_⟩
      · exact List.mem_filter.2 ⟨hmem, by simpa using HasPrefix_append m.pfx k⟩
      · simp [entryKV, hd, TrimPrefix_append]
  · apply length_filterMap_of_isSome
    intro e he
    obtain ⟨n, hn⟩ := hdecF e he (hall e he)
    exact ⟨⟨TrimPrefix e.1 m.pfx, n⟩, by simp [entryKV, hn]⟩
  · rw [List.pairwise_map, List.pairwise_filterMap]
    have hsf : (db.tree.filter (fun e => HasPrefix e.1 m.pfx)).Pairwise
        (fun x y => bytesLt x.1 y.1 = true) := List.Pairwise.filter _ hs
    refine List.Pairwise.imp_of_mem ?_ hsf
    intro a b ha hb hab x hx y hy
    obtain ⟨ta, hta⟩ := (HasPrefix_iff _ _).1 (hall a ha)
    obtain ⟨tb, htb⟩ := (HasPrefix_iff _ _).1 (hall b hb)
    rw [hta, htb, bytesLt_append_left] at hab
    unfold entryKV at hx hy
    cases hda : C.NewNodeFromBytes a.2 with
    | error e => simp [hda] at hx
    | ok na =>
      cases hdb : C.NewNodeFromBytes b.2 with
      | error e => simp [hdb] at hy
      | ok nb =>
        simp only [hda, hdb, Option.mem_def, Option.some.injEq, hta, htb,
          TrimPrefix_append] at hx hy
        rw [← hx, ← hy]
        exact hab

/-- C10. `List` truncation: for every `n > 0` and every engine state in which
`List(0)` succeeds with result `L`, `List(n)` succeeds and returns the first
`min(n, length L)` entries of `L`: at most `n` entries, a leading part of `L`. -/
theorem List_limit_truncates (C : Codec Node Hash) (m : BoltStore Hash) (db : DB)
    (n : Nat) (L : List (KV Node)) (hn : 0 < n)
    (h0 : BoltStore.List C m db 0 = (L, none)) :
    BoltStore.List C m db (n : Int) = (L.take n, none) ∧
      (L.take n).length = min n L.length ∧
      (L.take n).length ≤ n ∧
      L.take n <+: L := by
  have ho : db.opened = true := by
    by_contra hc
    have hc2 : db.opened = false := by simpa using hc
    unfold BoltStore.List at h0
    rw [DB.View_closed _ _ _ hc2] at h0
    simp at h0
  unfold BoltStore.List at h0 ⊢
  rw [DB.View_opened _ _ _ ho] at h0 ⊢
  have hmain := listLoop_limit C m.pfx (n : Int) (by exact_mod_cast hn)
    (db.tree.Seek m.pfx) 0 0 L (by exact_mod_cast hn) h0
  simp only [sub_zero, Int.toNat_ofNat] at hmain
  refine ⟨hmain, ?_, ?_, List.take_prefix _ _⟩
  · simp
  · simp

/-- Counterexample to C4 as stated: the handles have the distinct prefixes `""`
and `"x"`, yet the entry written by `Put` through the `"x"` handle appears in
`List(0)` of the handle with the empty prefix and is passed to the callback of
its `Iterate`. -/
theorem scan_observes_nested_namespace :
    rootHandle.pfx ≠ xHandle.pfx ∧
      BoltStore.Put sampleCodec xHandle ⟨true, []⟩ [1] (SampleNode.leaf 3 3) =
        (none, ⟨true, [([120, 1], [1, 3, 3])]⟩) ∧
      BoltStore.List sampleCodec rootHandle ⟨true, [([120, 1], [1, 3, 3])]⟩ 0 =
        ([⟨[120, 1], SampleNode.leaf 3 3⟩], none) ∧
      BoltStore.Iterate sampleCodec rootHandle ⟨true, [([120, 1], [1, 3, 3])]⟩ recordKeys [] =
        ([[120, 1]], none) :=
  ⟨by decide, rfl, rfl, rfl⟩

/-- Witness for C4 as amended: a write through namespace `"y"` seen from
namespace `"x"` on the sample engine. -/
theorem scan_isolation_witness :
    sampleDB.tree.Sorted ∧ HasPrefix ([121] ++ [1]) xHandle.pfx = false ∧
      BoltStore.Put sampleCodec (⟨[121], none⟩ : BoltStore Bytes) sampleDB [1]
        (SampleNode.leaf 7 7) =
        (none, ⟨true, [([1], [1, 1, 1]), ([2], [1, 2, 2]), ([120, 1], [1, 3, 3]),
          ([121, 1], [1, 7, 7])]⟩) ∧
      BoltStore.List sampleCodec xHandle
        ⟨true, [([1], [1, 1, 1]), ([2], [1, 2, 2]), ([120, 1], [1, 3, 3]),
          ([121, 1], [1, 7, 7])]⟩ 0 = BoltStore.List sampleCodec xHandle sampleDB 0 :=
  ⟨by decide, rfl, rfl,
    (scan_isolation sampleCodec xHandle ⟨[121], none⟩ sampleDB _ [1] (SampleNode.leaf 7 7)
      (by decide) rfl rfl).1 0⟩

/-- Witness for C9: `List(0)` through the empty prefix on the sample engine. -/
theorem List_zero_complete_sorted_witness :
    sampleDB.opened = true ∧ sampleDB.tree.Sorted ∧
      ∃ L : List (KV SampleNode), BoltStore.List sampleCodec rootHandle sampleDB 0 = (L, none) ∧
        (∀ (k : Bytes) (n : SampleNode), (⟨k, n⟩ : KV SampleNode) ∈ L ↔
          ∃ v, (rootHandle.pfx ++ k, v) ∈ sampleDB.tree ∧
            sampleCodec.NewNodeFromBytes v = Except.ok n) ∧
        L.length = (sampleDB.tree.filter (fun e => HasPrefix e.1 rootHandle.pfx)).length ∧
        (L.map KV.K).Pairwise (fun a b => bytesLt a b = true) :=
  ⟨rfl, by decide,
    List_zero_complete_sorted sampleCodec rootHandle sampleDB rfl (by decide) (by
      intro e he _
      simp only [sampleDB, List.mem_cons, List.mem_singleton, List.not_mem_nil, or_false] at he
      rcases he with rfl | rfl | rfl <;> exact ⟨_, rfl⟩)⟩

/-- Witness for C10: `List(1)` on the engine of the scenario with nodes A and B. -/
theorem List_limit_truncates_witness :
    BoltStore.List sampleCodec rootHandle ⟨true, [([1], [1, 1, 1]), ([2], [1, 2, 2])]⟩ 0 =
        ([⟨[1], SampleNode.leaf 1 1⟩, ⟨[2], SampleNode.leaf 2 2⟩], none) ∧
      BoltStore.List sampleCodec rootHandle ⟨true, [([1], [1, 1, 1]), ([2], [1, 2, 2])]⟩
        ((1 : Nat) : Int) = ([⟨[1], SampleNode.leaf 1 1⟩], none) :=
  ⟨rfl,
    (List_limit_truncates sampleCodec rootHandle ⟨true, [([1], [1, 1, 1]), ([2], [1, 2, 2])]⟩
      1 [⟨[1], SampleNode.leaf 1 1⟩, ⟨[2], SampleNode.leaf 2 2⟩] (by decide) rfl).1⟩

end ScanClaims

/-! ## Failure and frame properties -/

section Frame

variable {Node Hash : Type}

/-- When the scan reaches a value that does not decode, the loop of `List`
returns the decoder's error together with the pairs collected before it. -/
theorem listLoop_decode_error (C : Codec Node Hash) (p : Bytes) (limit : Int)
    (post : List (Bytes × Bytes)) (k v : Bytes) (d : DecodeError)
    (hk : HasPrefix k p = true) (hd : C.NewNodeFromBytes v = Except.error d)
    (pre : List (Bytes × Bytes)) :
    (∀ e ∈ pre, HasPrefix e.1 p = true ∧ ∃ n, C.NewNodeFromBytes e.2 = Except.ok n) →
    ∀ (res : List (KV Node)) (c : Int),
    (limit = 0 ∨ pre = [] ∨ c + pre.length < limit) →
    listLoop C p limit (pre ++ (k, v) :: post) res c =
      (res ++ pre.filterMap (entryKV C p), some (Error.decode d)) := by
  induction pre with
  | nil =>
    intro _ res c _
    simp [listLoop, hk, hd]
  | cons e rest ih =>
    intro hpre res c hreach
    obtain ⟨k0, v0⟩ := e
    obtain ⟨hp0, n0, hn0⟩ := hpre (k0, v0) (List.mem_cons_self _ _)
    simp only at hp0 hn0
    have hrest : ∀ e ∈ rest, HasPrefix e.1 p = true ∧
        ∃ n, C.NewNodeFromBytes e.2 = Except.ok n :=
      fun e he => hpre e (List.mem_cons_of_mem _ he)
    have hgo : ¬ (limit ≠ 0 ∧ c + 1 ≥ limit) := by
      rintro ⟨h0, h1⟩
      rcases hreach with h | h | h
      · exact h0 h
      · simp at h
      · simp only [List.length_cons, Nat.cast_add, Nat.cast_one] at h
        omega
    have hreach1 : limit = 0 ∨ rest = [] ∨ c + 1 + rest.length < limit := by
      rcases hreach with h | h | h
      · exact Or.inl h
      · simp at h
      · simp only [List.length_cons, Nat.cast_add, Nat.cast_one] at h
        exact Or.inr (Or.inr (by omega))
    rw [List.cons_append]
    unfold listLoop
    simp only [hp0, if_true, hn0]
    rw [if_neg hgo, ih hrest _ _ hreach1]
    simp [entryKV, hn0, Clone]

/-- C11, as amended. Over an open engine with a sorted bucket whose entries
under the handle's prefix are `pre`, then `(k, v)`, then `post`, where the
values of `pre` decode and `v` does not, and the limit lets the scan reach
`(k, v)`: `List` returns the decoder's error for `v`, and the slice returned
with it holds the pairs of `pre`, one per entry; it is not emptied. -/
theorem List_decode_error_keeps_collected (C : Codec Node Hash) (m : BoltStore Hash)
    (db : DB) (limit : Int) (pre post : List (Bytes × Bytes)) (k v : Bytes)
    (d : DecodeError) (hopen : db.opened = true) (hs : db.tree.Sorted)
    (hentries : db.tree.filter (fun e => HasPrefix e.1 m.pfx) = pre ++ (k, v) :: post)
    (hpre : ∀ e ∈ pre, ∃ n, C.NewNodeFromBytes e.2 = Except.ok n)
    (hd : C.NewNodeFromBytes v = Except.error d)
    (hreach : limit = 0 ∨ pre = [] ∨ (pre.length : Int) < limit) :
    BoltStore.List C m db limit =
        (pre.filterMap (entryKV C m.pfx), some (Error.decode d)) ∧
      (pre.filterMap (entryKV C m.pfx)).length = pre.length := by
  have hall : ∀ e ∈ pre ++ (k, v) :: post, HasPrefix e.1 m.pfx = true := by
    intro e he
    rw [← hentries] at he
    simpa using (List.mem_filter.1 he).2
  have hpre2 : ∀ e ∈ pre, HasPrefix e.1 m.pfx = true ∧
      ∃ n, C.NewNodeFromBytes e.2 = Except.ok n :=
    fun e he => ⟨hall e (List.mem_append_left _ he), hpre e he⟩
  have hk : HasPrefix k m.pfx = true :=
    hall (k, v) (List.mem_append_right _ (List.mem_cons_self _ _))
  constructor
  · rw [BoltStore.List_eq_filter C m db limit hs, DB.View_opened _ _ _ hopen, hentries]
    show listLoop C m.pfx limit _ [] 0 = _
    rw [listLoop_decode_error C m.pfx limit post k v d hk hd pre hpre2 [] 0
      (by simpa using hreach)]
    simp
  · apply length_filterMap_of_isSome
    intro e he
    obtain ⟨n, hn⟩ := hpre e he
    exact ⟨⟨TrimPrefix e.1 m.pfx, n⟩, by simp [entryKV, hn]⟩

/-- Counterexample to C11 as stated: the second value of the engine does not
decode; `List(0)` returns the decoder's error and, with it, a slice that holds
the first entry. -/
theorem List_returns_partial_slice_with_error :
    sampleCodec.NewNodeFromBytes [9] = Except.error ⟨2⟩ ∧
      BoltStore.List sampleCodec rootHandle brokenDB 0 =
        ([⟨[1], SampleNode.leaf 1 1⟩], some (Error.decode ⟨2⟩)) ∧
      (BoltStore.List sampleCodec rootHandle brokenDB 0).1 ≠ [] :=
  ⟨rfl, rfl, by decide⟩

/-- Witness for C11 as amended, on the engine whose second value does not
decode, with limit 0. -/
theorem List_decode_error_keeps_collected_witness :
    brokenDB.opened = true ∧ brokenDB.tree.Sorted ∧
      BoltStore.List sampleCodec rootHandle brokenDB 0 =
        ([([1], [1, 1, 1])].filterMap (entryKV sampleCodec rootHandle.pfx),
          some (Error.decode ⟨2⟩)) :=
  ⟨rfl, by decide,
    (List_decode_error_keeps_collected sampleCodec rootHandle brokenDB 0
      [([1], [1, 1, 1])] [([3], [1, 3, 3])] [2] [9] ⟨2⟩ rfl (by decide) rfl
      (by intro e he
          simp only [List.mem_singleton] at he
          subst he
          exact ⟨_, rfl⟩)
      rfl (Or.inl rfl)).1⟩

/-- C14. `WithPrefix` construction: the derived handle has the prefix `P ‖ S` and
no cached root, whatever the parent's cache holds; it works on the same
engine, its `Put` and `Get` of key `k` being the parent's `Put` and `Get` of key
`S ‖ k`; the parent handle is not changed, `WithPrefix` returning the new
handle only. -/
theorem WithPrefix_construction (C : Codec Node Hash) (m : BoltStore Hash) (S : Bytes) :
    (BoltStore.WithPrefix m S).pfx = m.pfx ++ S ∧
      (BoltStore.WithPrefix m S).currentRoot = none ∧
      (∀ (db : DB) (k : Bytes) (n : Node),
        BoltStore.Put C (BoltStore.WithPrefix m S) db k n = BoltStore.Put C m db (S ++ k) n) ∧
      (∀ (db : DB) (k : Bytes),
        BoltStore.Get C (BoltStore.WithPrefix m S) db k = BoltStore.Get C m db (S ++ k)) := by
  refine ⟨rfl, rfl, ?_, ?_⟩
  · intro db k n
    simp [BoltStore.Put, BoltStore.WithPrefix, Concat, List.append_assoc]
  · intro db k
    simp [BoltStore.Get, BoltStore.WithPrefix, Concat, List.append_assoc]

theorem BoltStore.SetRoot_error (C : Codec Node Hash) (m m1 : BoltStore Hash) (db db1 : DB)
    (hash : Hash) (e : Error) (h : BoltStore.SetRoot C m db hash = (some e, m1, db1)) :
    m1 = m ∧ db1 = db ∧ (db.Update (fun b => b.Put rootKey (C.Hex hash))).2 = some e := by
  unfold BoltStore.SetRoot at h
  simp only at h
  split at h
  · rename_i db2 err hupd
    simp only [Prod.mk.injEq, Option.some.injEq] at h
    obtain ⟨he, hm, hdb⟩ := h
    subst he hm hdb
    exact ⟨rfl, DB.Update_Put_error db db2 rootKey (C.Hex hash) err hupd, by rw [hupd]⟩
  · simp at h

/-- C15. Failure atomicity of the root cache: when `SetRoot` returns an error, it
is the error of the engine write, and the handle (so its cached root) and the
engine are what they were; when `GetRoot` on a handle with no cached root
returns an error, it returns no hash and the handle is what it was; it does so
with `ErrNotFound` when the key it reads is absent and with the decoder's
error when the text there does not decode. -/
theorem root_cache_failure_atomic (C : Codec Node Hash) (m m1 : BoltStore Hash)
    (db db1 : DB) (hash : Hash) (e : Error)
    (hset : BoltStore.SetRoot C m db hash = (some e, m1, db1)) :
    (m1 = m ∧ db1 = db ∧ (db.Update (fun b => b.Put rootKey (C.Hex hash))).2 = some e) ∧
      (∀ (m0 m2 : BoltStore Hash) (db0 : DB) (r : Option Hash) (e0 : Error),
        m0.currentRoot = none → BoltStore.GetRoot C m0 db0 = (r, some e0, m2) →
        r = none ∧ m2 = m0) ∧
      (∀ (m0 : BoltStore Hash) (db0 : DB), m0.currentRoot = none → db0.opened = true →
        db0.tree.Get rootKey = none →
        BoltStore.GetRoot C m0 db0 = (none, some Error.ErrNotFound, m0)) ∧
      (∀ (m0 : BoltStore Hash) (db0 : DB) (v : Bytes) (d : DecodeError),
        m0.currentRoot = none → db0.opened = true → db0.tree.Get rootKey = some v →
        C.NewHashFromHex v = Except.error d →
        BoltStore.GetRoot C m0 db0 = (none, some (Error.decode d), m0)) := by
  refine ⟨BoltStore.SetRoot_error C m m1 db db1 hash e hset, ?_, ?_, ?_⟩
  · intro m0 m2 db0 r e0 hcur hget
    by_cases ho : db0.opened = true
    · rw [BoltStore.GetRoot_unpopulated C m0 db0 hcur ho] at hget
      cases hg : db0.tree.Get rootKey with
      | none =>
        simp only [hg, Prod.mk.injEq] at hget
        exact ⟨hget.1.symm, hget.2.2.symm⟩
      | some v =>
        cases hd : C.NewHashFromHex v with
        | error d =>
          simp only [hg, hd, Prod.mk.injEq] at hget
          exact ⟨hget.1.symm, hget.2.2.symm⟩
        | ok c => simp [hg, hd] at hget
    · have hc : db0.opened = false := by simpa using ho
      obtain ⟨p0, r0⟩ := m0
      simp only at hcur
      subst hcur
      unfold BoltStore.GetRoot at hget
      simp only at hget
      rw [DB.View_closed _ _ _ hc] at hget
      simp only [Prod.mk.injEq] at hget
      exact ⟨hget.1.symm, hget.2.2.symm⟩
  · intro m0 db0 hcur ho hg
    rw [BoltStore.GetRoot_unpopulated C m0 db0 hcur ho, hg]
  · intro m0 db0 v d hcur ho hg hd
    rw [BoltStore.GetRoot_unpopulated C m0 db0 hcur ho, hg]
    simp only [hd]

/-- Witness for C15: `SetRoot` on a closed engine through a handle that caches
the hash `09`. -/
theorem root_cache_failure_atomic_witness :
    BoltStore.SetRoot sampleCodec (⟨[], some [9]⟩ : BoltStore Bytes) ⟨false, []⟩ [1, 2] =
        (some Error.ErrDatabaseNotOpen, ⟨[], some [9]⟩, ⟨false, []⟩) ∧
      BoltStore.GetRoot sampleCodec rootHandle sampleDB =
        (none, some Error.ErrNotFound, rootHandle) :=
  ⟨rfl,
    (root_cache_failure_atomic sampleCodec ⟨[], some [9]⟩ ⟨[], some [9]⟩ ⟨false, []⟩
      ⟨false, []⟩ [1, 2] Error.ErrDatabaseNotOpen rfl).2.2.1 rootHandle sampleDB rfl rfl rfl⟩

/-- C19. `Put` frame: a successful `Put(k1, n)` through a handle with prefix `P`
leaves `Get(k2)` on the same handle unchanged for every `k2 ≠ k1`, leaves the
value of every engine key other than `P ‖ k1` unchanged, and leaves the handle
as it was (`Put` returns no handle), so that a cached root is still what
`GetRoot` returns. -/
theorem Put_frame (C : Codec Node Hash) (m : BoltStore Hash) (db db1 : DB)
    (k1 k2 : Bytes) (n : Node) (hne : k1 ≠ k2)
    (hput : BoltStore.Put C m db k1 n = (none, db1)) :
    BoltStore.Get C m db1 k2 = BoltStore.Get C m db k2 ∧
      (∀ key : Bytes, key ≠ m.pfx ++ k1 → db1.tree.Get key = db.tree.Get key) ∧
      db1.opened = db.opened ∧
      (∀ c : Hash, m.currentRoot = some c →
        BoltStore.GetRoot C m db1 = (some c, none, m)) := by
  obtain ⟨ho, hdb⟩ := BoltStore.Put_ok C m db db1 k1 n hput
  have ho1 : db1.opened = true := by rw [hdb]; exact ho
  have hframe : ∀ key : Bytes, key ≠ m.pfx ++ k1 → db1.tree.Get key = db.tree.Get key := by
    intro key hkey
    rw [hdb]
    exact Bucket.Get_upsert_other _ _ _ _ hkey
  refine ⟨?_, hframe, by rw [ho1, ho], ?_⟩
  · have hkey : Concat m.pfx k2 ≠ m.pfx ++ k1 := by
      unfold Concat
      intro h
      exact hne (List.append_cancel_left h).symm
    rw [BoltStore.Get_opened C m db1 k2 ho1, BoltStore.Get_opened C m db k2 ho,
      hframe _ hkey]
  · intro c hc
    exact BoltStore.GetRoot_populated C m db1 c hc

/-- Witness for C19: a write of key `0x03` through the empty prefix of the sample
engine, and a read of key `0x01`. -/
theorem Put_frame_witness :
    BoltStore.Put sampleCodec rootHandle sampleDB [3] (SampleNode.leaf 7 7) =
        (none, ⟨true, [([1], [1, 1, 1]), ([2], [1, 2, 2]), ([3], [1, 7, 7]),
          ([120, 1], [1, 3, 3])]⟩) ∧
      BoltStore.Get sampleCodec rootHandle
        ⟨true, [([1], [1, 1, 1]), ([2], [1, 2, 2]), ([3], [1, 7, 7]),
          ([120, 1], [1, 3, 3])]⟩ [1] = BoltStore.Get sampleCodec rootHandle sampleDB [1] :=
  ⟨rfl,
    (Put_frame sampleCodec rootHandle sampleDB _ [3] [1] (SampleNode.leaf 7 7)
      (by decide) rfl).1⟩

/-- With a negative limit the loop of `List` does what it does with limit 1. -/
theorem listLoop_negative (C : Codec Node Hash) (p : Bytes) (limit : Int) (hneg : limit < 0)
    (xs : List (Bytes × Bytes)) (res : List (KV Node)) :
    listLoop C p limit xs res 0 = listLoop C p 1 xs res 0 := by
  cases xs with
  | nil => rfl
  | cons e rest =>
    obtain ⟨k, v⟩ := e
    unfold listLoop
    by_cases hp : HasPrefix k p = true
    · simp only [hp, if_true]
      cases hd : C.NewNodeFromBytes v with
      | error d => rfl
      | ok n =>
        simp only
        rw [if_pos (by constructor <;> omega), if_pos (by constructor <;> omega)]
    · simp [hp]

/-- With limit 1 the loop of `List` adds at most one pair. -/
theorem listLoop_one_length (C : Codec Node Hash) (p : Bytes)
    (xs : List (Bytes × Bytes)) :
    (listLoop C p 1 xs [] 0).1.length ≤ 1 := by
  cases xs with
  | nil => simp [listLoop]
  | cons e rest =>
    obtain ⟨k, v⟩ := e
    unfold listLoop
    by_cases hp : HasPrefix k p = true
    · simp only [hp, if_true]
      cases hd : C.NewNodeFromBytes v with
      | error d => simp
      | ok n => simp
    · simp [hp]

/-- C20. Negative limit: for every `limit < 0`, `List(limit)` returns what
`List(1)` returns: at most one pair, and, over an open engine with a sorted
bucket whose first entry under the prefix decodes, exactly the pair of that
smallest-keyed entry. -/
theorem List_negative_limit (C : Codec Node Hash) (m : BoltStore Hash) (db : DB)
    (limit : Int) (hneg : limit < 0) :
    BoltStore.List C m db limit = BoltStore.List C m db 1 ∧
      (BoltStore.List C m db limit).1.length ≤ 1 ∧
      (∀ (e : Bytes × Bytes) (rest : List (Bytes × Bytes)) (n : Node),
        db.opened = true → db.tree.Sorted →
        db.tree.filter (fun e => HasPrefix e.1 m.pfx) = e :: rest →
        C.NewNodeFromBytes e.2 = Except.ok n →
        BoltStore.List C m db limit = ([⟨TrimPrefix e.1 m.pfx, n⟩], none)) := by
  have heq : BoltStore.List C m db limit = BoltStore.List C m db 1 := by
    unfold BoltStore.List DB.View
    split_ifs
    · exact listLoop_negative C m.pfx limit hneg _ _
    · rfl
  refine ⟨heq, ?_, ?_⟩
  · rw [heq]
    unfold BoltStore.List DB.View
    split_ifs
    · exact listLoop_one_length C m.pfx _
    · simp
  · intro e rest n ho hs hentries hd
    have hp : HasPrefix e.1 m.pfx = true := by
      have : e ∈ db.tree.filter (fun e => HasPrefix e.1 m.pfx) := by
        rw [hentries]; exact List.mem_cons_self _ _
      simpa using (List.mem_filter.1 this).2
    rw [heq, BoltStore.List_eq_filter C m db 1 hs, DB.View_opened _ _ _ ho, hentries]
    obtain ⟨k, v⟩ := e
    simp only at hp hd
    show listLoop C m.pfx 1 ((k, v) :: rest) [] 0 = _
    unfold listLoop
    simp [hp, hd, Clone]

/-- Witness for C20: `List(-3)` through the empty prefix of the sample engine. -/
theorem List_negative_limit_witness :
    ((-3 : Int) < 0) ∧
      BoltStore.List sampleCodec rootHandle sampleDB (-3) =
        ([⟨[1], SampleNode.leaf 1 1⟩], none) :=
  ⟨by decide,
    (List_negative_limit sampleCodec rootHandle sampleDB (-3) (by decide)).2.2
      ([1], [1, 1, 1]) [([2], [1, 2, 2]), ([120, 1], [1, 3, 3])] (SampleNode.leaf 1 1)
      rfl (by decide) rfl rfl⟩

end Frame

/-! ## Runs of `Iterate` -/

section IterateRun

variable {Node Hash σ : Type}

/-- One turn of the loop of `Iterate` on an entry that begins with the prefix
and decodes. -/
theorem iterateLoop_cons_ok {τ : Type} (C : Codec Node Hash) (p : Bytes)
    (g : τ → Bytes → Node → τ × Bool × Option Error)
    (k v : Bytes) (rest : List (Bytes × Bytes)) (st st1 : τ) (n : Node) (cont : Bool)
    (err : Option Error) (hp : HasPrefix k p = true)
    (hd : C.NewNodeFromBytes v = Except.ok n)
    (hg : g st (TrimPrefix k p) n = (st1, cont, err)) :
    iterateLoop C p g ((k, v) :: rest) st =
      match err, cont with
      | some e, _ => (st1, some e)
      | none, false => (st1, none)
      | none, true => iterateLoop C p g rest st1 := by
  rw [iterateLoop]
  simp only [hp, if_true, hd, Clone, hg]
  cases err with
  | some e => rfl
  | none => cases cont <;> rfl

/-- One turn of the loop of `Iterate` on an entry that begins with the prefix
and does not decode. -/
theorem iterateLoop_cons_error {τ : Type} (C : Codec Node Hash) (p : Bytes)
    (g : τ → Bytes → Node → τ × Bool × Option Error)
    (k v : Bytes) (rest : List (Bytes × Bytes)) (st : τ) (d : DecodeError)
    (hp : HasPrefix k p = true) (hd : C.NewNodeFromBytes v = Except.error d) :
    iterateLoop C p g ((k, v) :: rest) st = (st, some (Error.decode d)) := by
  rw [iterateLoop]
  simp only [hp, if_true, hd]

/-- The log does not change the run: without it, the instrumented run is the
run of the callback itself. -/
theorem iterateLoop_traced_erase (C : Codec Node Hash) (p : Bytes)
    (f : σ → Bytes → Node → σ × Bool × Option Error) (xs : List (Bytes × Bytes)) :
    ∀ (s : σ) (log : List (Call Node)),
    ((iterateLoop C p (traced f) xs (s, log)).1.1,
      (iterateLoop C p (traced f) xs (s, log)).2) = iterateLoop C p f xs s := by
  induction xs with
  | nil => intro s log; rfl
  | cons e rest ih =>
    intro s log
    obtain ⟨k, v⟩ := e
    by_cases hp : HasPrefix k p = true
    · cases hd : C.NewNodeFromBytes v with
      | error d =>
        rw [iterateLoop_cons_error C p _ k v rest _ d hp hd,
          iterateLoop_cons_error C p _ k v rest _ d hp hd]
      | ok n =>
        rcases hf : f s (TrimPrefix k p) n with ⟨s1, cont, err⟩
        have ht : traced f (s, log) (TrimPrefix k p) n =
            ((s1, log ++ [⟨TrimPrefix k p, n, cont, err⟩]), cont, err) := by
          simp [traced, hf]
        rw [iterateLoop_cons_ok C p _ k v rest _ _ n cont err hp hd ht,
          iterateLoop_cons_ok C p _ k v rest _ _ n cont err hp hd hf]
        cases err with
        | some e => rfl
        | none =>
          cases cont with
          | false => rfl
          | true => exact ih s1 _
    · rw [iterateLoop, iterateLoop]
      simp [hp]

/-- How a run of the loop of `Iterate` ends, over entries that all begin with
the prefix: the calls are made on a leading part of the entries, stripped and
decoded, in their order; each call records what the callback returned; and
either every entry was visited, or the last call stopped the run, or the next
entry did not decode. -/
theorem iterateLoop_traced_outcome (C : Codec Node Hash) (p : Bytes)
    (f : σ → Bytes → Node → σ × Bool × Option Error) (ys : List (Bytes × Bytes)) :
    (∀ e ∈ ys, HasPrefix e.1 p = true) →
    ∀ (s : σ) (log : List (Call Node)), ∃ new : List (Call Node),
      (iterateLoop C p (traced f) ys (s, log)).1.2 = log ++ new ∧
      new.map (fun c => some c.kv) <+: ys.map (entryKV C p) ∧
      (∀ c ∈ new, ∃ s0, (f s0 c.key c.node).2 = (c.cont, c.err)) ∧
      ((AllGo new ∧ new.length = ys.length ∧
          (iterateLoop C p (traced f) ys (s, log)).2 = none) ∨
        (∃ init c, new = init ++ [c] ∧ AllGo init ∧ (c.cont = false ∨ c.err ≠ none) ∧
          (iterateLoop C p (traced f) ys (s, log)).2 = c.err) ∨
        (AllGo new ∧ ∃ e d, ys[new.length]? = some e ∧
          C.NewNodeFromBytes e.2 = Except.error d ∧
          (iterateLoop C p (traced f) ys (s, log)).2 = some (Error.decode d))) := by
  induction ys with
  | nil =>
    intro _ s log
    refine ⟨[], by simp [iterateLoop], by simp, by simp, Or.inl ⟨?_, rfl, by simp [iterateLoop]⟩⟩
    intro c hc
    simp at hc
  | cons e rest ih =>
    intro hall s log
    obtain ⟨k, v⟩ := e
    have hp : HasPrefix k p = true := hall (k, v) (List.mem_cons_self _ _)
    have hrest : ∀ e ∈ rest, HasPrefix e.1 p = true :=
      fun e he => hall e (List.mem_cons_of_mem _ he)
    cases hd : C.NewNodeFromBytes v with
    | error d =>
      rw [iterateLoop_cons_error C p _ k v rest _ d hp hd]
      refine ⟨[], by simp, by simp, by simp, Or.inr (Or.inr ⟨?_, (k, v), d, by simp, hd, rfl⟩)⟩
      intro c hc
      simp at hc
    | ok n =>
      rcases hf : f s (TrimPrefix k p) n with ⟨s1, cont, err⟩
      have ht : traced f (s, log) (TrimPrefix k p) n =
          ((s1, log ++ [⟨TrimPrefix k p, n, cont, err⟩]), cont, err) := by
        simp [traced, hf]
      have hekv : entryKV C p (k, v) =
          some (Call.kv ⟨TrimPrefix k p, n, cont, err⟩) := by
        simp [entryKV, hd, Call.kv]
      have hrec : ∃ s0, (f s0 (TrimPrefix k p) n).2 = (cont, err) := ⟨s, by rw [hf]⟩
      rw [iterateLoop_cons_ok C p _ k v rest _ _ n cont err hp hd ht]
      have hstop : (cont = false ∨ err ≠ none) →
          ∃ new : List (Call Node),
            log ++ [⟨TrimPrefix k p, n, cont, err⟩] = log ++ new ∧
            new.map (fun c => some c.kv) <+: ((k, v) :: rest).map (entryKV C p) ∧
            (∀ c ∈ new, ∃ s0, (f s0 c.key c.node).2 = (c.cont, c.err)) ∧
            ∃ init c, new = init ++ [c] ∧ AllGo init ∧ (c.cont = false ∨ c.err ≠ none) ∧
              err = c.err := by
        intro hstop
        refine ⟨[⟨TrimPrefix k p, n, cont, err⟩], rfl, ?_, ?_, [], _, rfl, ?_, hstop, rfl⟩
        · refine ⟨rest.map (entryKV C p), ?_⟩
          simp [hekv]
        · intro c hc
          simp only [List.mem_singleton] at hc
          subst hc
          exact hrec
        · intro c hc
          simp at hc
      cases err with
      | some e =>
        obtain ⟨new, h1, h2, h3, h4⟩ := hstop (Or.inr (by simp))
        exact ⟨new, h1, h2, h3, Or.inr (Or.inl h4)⟩
      | none =>
        cases cont with
        | false =>
          obtain ⟨new, h1, h2, h3, h4⟩ := hstop (Or.inl rfl)
          exact ⟨new, h1, h2, h3, Or.inr (Or.inl h4)⟩
        | true =>
          obtain ⟨new, h1, h2, h3, h4⟩ := ih hrest s1 (log ++ [⟨TrimPrefix k p, n, true, none⟩])
          simp only at h1 h4 ⊢
          refine ⟨⟨TrimPrefix k p, n, true, none⟩ :: new, ?_, ?_, ?_, ?_⟩
          · rw [h1]; simp
          · obtain ⟨t, ht2⟩ := h2
            refine ⟨t, ?_⟩
            simp only [List.map_cons, List.cons_append, hekv, ht2]
          · intro c hc
            rcases List.mem_cons.1 hc with hc | hc
            · subst hc; exact hrec
            · exact h3 c hc
          · have hgo : ∀ l : List (Call Node), AllGo l →
                AllGo (⟨TrimPrefix k p, n, true, none⟩ :: l) := by
              intro l hl c hc
              rcases List.mem_cons.1 hc with hc | hc
              · subst hc; exact ⟨rfl, rfl⟩
              · exact hl c hc
            rcases h4 with ⟨ha, hl, he⟩ | ⟨init, c, hn, ha, hc, he⟩ | ⟨ha, e, d, hidx, hde, he⟩
            · exact Or.inl ⟨hgo _ ha, by simp [hl], he⟩
            · exact Or.inr (Or.inl ⟨⟨TrimPrefix k p, n, true, none⟩ :: init, c,
                by simp [hn], hgo _ ha, hc, he⟩)
            · exact Or.inr (Or.inr ⟨hgo _ ha, e, d, by simpa using hidx, hde, he⟩)

/-- With a callback that always returns `(true, nil)`, the loop of `Iterate`
passes to it the pairs the loop of `List` collects with limit 0, and ends with
the same error. -/
theorem iterateLoop_traced_eq_listLoop (C : Codec Node Hash) (p : Bytes)
    (f : σ → Bytes → Node → σ × Bool × Option Error)
    (hf : ∀ s k n, (f s k n).2 = (true, none)) (xs : List (Bytes × Bytes)) :
    ∀ (s : σ) (log : List (Call Node)) (c : Int),
    ((iterateLoop C p (traced f) xs (s, log)).1.2.map Call.kv,
      (iterateLoop C p (traced f) xs (s, log)).2) =
      listLoop C p 0 xs (log.map Call.kv) c := by
  induction xs with
  | nil => intro s log c; rfl
  | cons e rest ih =>
    intro s log c
    obtain ⟨k, v⟩ := e
    by_cases hp : HasPrefix k p = true
    · cases hd : C.NewNodeFromBytes v with
      | error d =>
        rw [iterateLoop_cons_error C p _ k v rest _ d hp hd, listLoop]
        simp [hp, hd]
      | ok n =>
        rcases hfs : f s (TrimPrefix k p) n with ⟨s1, cont, err⟩
        have h2 := hf s (TrimPrefix k p) n
        rw [hfs] at h2
        simp only [Prod.mk.injEq] at h2
        obtain ⟨hc, he⟩ := h2
        subst hc he
        have ht : traced f (s, log) (TrimPrefix k p) n =
            ((s1, log ++ [⟨TrimPrefix k p, n, true, none⟩]), true, none) := by
          simp [traced, hfs]
        rw [iterateLoop_cons_ok C p _ k v rest _ _ n true none hp hd ht, listLoop]
        simp only [hp, if_true, hd]
        rw [if_neg (by simp), ih s1 _ (c + 1)]
        simp [Call.kv, Clone]
    · rw [iterateLoop, listLoop]
      simp [hp]

end IterateRun

/-! ## Claims about `Iterate` -/

section IterateClaims

variable {Node Hash σ : Type}

theorem prefix_map_of_prefix_map {α β γ δ : Type} (g1 : α → γ) (g2 : β → γ)
    (h1 : α → δ) (h2 : β → δ) (hg : ∀ a b, g1 a = g2 b → h1 a = h2 b) :
    ∀ (l1 : List α) (l2 : List β), l1.map g1 <+: l2.map g2 → l1.map h1 <+: l2.map h2 := by
  intro l1
  induction l1 with
  | nil => intro l2 _; simp
  | cons a rest ih =>
    intro l2 h
    cases l2 with
    | nil =>
      obtain ⟨t, ht⟩ := h
      simp at ht
    | cons b rest2 =>
      simp only [List.map_cons] at h ⊢
      rw [List.cons_prefix_cons] at h ⊢
      exact ⟨hg a b h.1, ih rest2 h.2⟩

/-- The stripped keys of the entries under a prefix are strictly ascending. -/
theorem scanEntries_keys_sorted (m : BoltStore Hash) (db : DB) (hs : db.tree.Sorted) :
    ((scanEntries m db).map (fun e => TrimPrefix e.1 m.pfx)).Pairwise
      (fun a b => bytesLt a b = true) := by
  have hall : ∀ e ∈ scanEntries m db, HasPrefix e.1 m.pfx = true := by
    intro e he
    simpa using (List.mem_filter.1 he).2
  have hsf : (scanEntries m db).Pairwise (fun x y => bytesLt x.1 y.1 = true) :=
    List.Pairwise.filter _ hs
  rw [List.pairwise_map]
  refine List.Pairwise.imp_of_mem ?_ hsf
  intro a b ha hb hab
  obtain ⟨ta, hta⟩ := (HasPrefix_iff _ _).1 (hall a ha)
  obtain ⟨tb, htb⟩ := (HasPrefix_iff _ _).1 (hall b hb)
  rw [hta, htb, bytesLt_append_left] at hab
  rw [hta, htb, TrimPrefix_append, TrimPrefix_append]
  exact hab

/-- The error a run of `Iterate` returns does not depend on the log. -/
theorem BoltStore.Iterate_traced_err (C : Codec Node Hash) (m : BoltStore Hash) (db : DB)
    (f : σ → Bytes → Node → σ × Bool × Option Error) (s : σ) :
    ((BoltStore.Iterate C m db (traced f) (s, [])).1.1,
      (BoltStore.Iterate C m db (traced f) (s, [])).2) = BoltStore.Iterate C m db f s := by
  unfold BoltStore.Iterate DB.View
  split_ifs
  · exact iterateLoop_traced_erase C m.pfx f _ s []
  · rfl

/-- On an open engine with a sorted bucket, the calls of a run of `Iterate` are
made on a leading part of the entries under the prefix, stripped and decoded;
each records what the callback returned; and the run ends in one of the three
ways of `RunOutcome`. -/
theorem BoltStore.Iterate_outcome (C : Codec Node Hash) (m : BoltStore Hash) (db : DB)
    (f : σ → Bytes → Node → σ × Bool × Option Error) (s : σ)
    (hopen : db.opened = true) (hs : db.tree.Sorted) :
    (IterateCalls C m db f s).map (fun c => some c.kv) <+:
        (scanEntries m db).map (entryKV C m.pfx) ∧
      (∀ c ∈ IterateCalls C m db f s, ∃ s0, (f s0 c.key c.node).2 = (c.cont, c.err)) ∧
      RunOutcome C (scanEntries m db) (IterateCalls C m db f s)
        (BoltStore.Iterate C m db f s).2 := by
  have herr := BoltStore.Iterate_traced_err C m db f s
  rw [Prod.ext_iff] at herr
  rw [← herr.2]
  have hrun : BoltStore.Iterate C m db (traced f) (s, []) =
      iterateLoop C m.pfx (traced f) (scanEntries m db) (s, []) := by
    rw [BoltStore.Iterate_eq_filter C m db (traced f) (s, []) hs, DB.View_opened _ _ _ hopen]
    rfl
  unfold IterateCalls
  rw [hrun]
  have hall : ∀ e ∈ scanEntries m db, HasPrefix e.1 m.pfx = true := by
    intro e he
    simpa using (List.mem_filter.1 he).2
  obtain ⟨new, h1, h2, h3, h4⟩ :=
    iterateLoop_traced_outcome C m.pfx f (scanEntries m db) hall s []
  simp only [List.nil_append] at h1
  rw [h1]
  exact ⟨h2, h3, h4⟩

/-- A call that stopped the run is the last call, and the run returns its
error. -/
theorem RunOutcome.stop_is_last (C : Codec Node Hash) (ys : List (Bytes × Bytes))
    (calls : List (Call Node)) (err : Option Error) (h : RunOutcome C ys calls err)
    (j : Nat) (c : Call Node) (hj : calls[j]? = some c)
    (hstop : c.cont = false ∨ c.err ≠ none) :
    calls.length = j + 1 ∧ err = c.err := by
  have hgo : AllGo calls → False := by
    intro ha
    have hc := ha c (List.getElem?_mem hj)
    rcases hstop with h1 | h1
    · rw [hc.1] at h1; exact Bool.noConfusion h1
    · exact h1 hc.2
  rcases h with ⟨ha, _, _⟩ | ⟨init, c1, hn, ha, _, he⟩ | ⟨ha, _⟩
  · exact (hgo ha).elim
  · subst hn
    by_cases hlt : j < init.length
    · rw [List.getElem?_append_left hlt] at hj
      have hc := ha c (List.getElem?_mem hj)
      rcases hstop with h1 | h1
      · rw [hc.1] at h1; exact Bool.noConfusion h1
      · exact (h1 hc.2).elim
    · have hge : init.length ≤ j := Nat.le_of_not_lt hlt
      rw [List.getElem?_append_right hge] at hj
      have hj0 : j - init.length = 0 := by
        by_contra hne
        have : [c1][j - init.length]? = none := by
          apply List.getElem?_eq_none
          simp only [List.length_singleton]
          omega
        rw [this] at hj
        exact Option.noConfusion hj
      rw [hj0] at hj
      simp only [List.getElem?_cons_zero, Option.some.injEq] at hj
      subst hj
      refine ⟨?_, he⟩
      simp only [List.length_append, List.length_singleton]
      omega
  · exact (hgo ha).elim

/-- The callback is not invoked for an entry that does not decode, nor for a
later one. -/
theorem calls_stop_before_undecodable (C : Codec Node Hash) (p : Bytes)
    (ys : List (Bytes × Bytes)) (calls : List (Call Node))
    (hpre : calls.map (fun c => some c.kv) <+: ys.map (entryKV C p))
    (i : Nat) (e : Bytes × Bytes) (d : DecodeError) (hi : ys[i]? = some e)
    (hd : C.NewNodeFromBytes e.2 = Except.error d) : calls.length ≤ i := by
  by_contra hlt
  have hlt2 : i < calls.length := Nat.lt_of_not_le hlt
  obtain ⟨t, ht⟩ := hpre
  have h1 : (calls.map (fun c => some c.kv) ++ t)[i]? = (ys.map (entryKV C p))[i]? := by
    rw [ht]
  rw [List.getElem?_append_left (by simpa using hlt2)] at h1
  simp only [List.getElem?_map, hi, Option.map_some'] at h1
  rw [List.getElem?_eq_getElem hlt2] at h1
  simp [entryKV, hd] at h1

/-- C12. `Iterate` order and early exit, on an open engine with a sorted bucket.
The run with the log is the run of the callback itself. The calls are made on
a leading part of the entries under the handle's prefix, in ascending key order,
each with the key stripped of the prefix and the decoded node. If the call
number `j + 1` returned a false signal and no error, `Iterate` returns no error
after exactly `j + 1` calls. If every call returned `(true, nil)` and every
value under the prefix decodes, `Iterate` returns no error after one call per
entry; and whenever `Iterate` returns no error and every call returned `true`,
there was one call per entry. -/
theorem Iterate_order_and_early_exit (C : Codec Node Hash) (m : BoltStore Hash) (db : DB)
    (f : σ → Bytes → Node → σ × Bool × Option Error) (s : σ)
    (hopen : db.opened = true) (hs : db.tree.Sorted) :
    ((BoltStore.Iterate C m db (traced f) (s, [])).1.1,
        (BoltStore.Iterate C m db (traced f) (s, [])).2) = BoltStore.Iterate C m db f s ∧
      (IterateCalls C m db f s).map (fun c => some c.kv) <+:
        (scanEntries m db).map (entryKV C m.pfx) ∧
      (IterateCalls C m db f s).map Call.key <+:
        (scanEntries m db).map (fun e => TrimPrefix e.1 m.pfx) ∧
      ((IterateCalls C m db f s).map Call.key).Pairwise (fun a b => bytesLt a b = true) ∧
      (∀ (j : Nat) (c : Call Node), (IterateCalls C m db f s)[j]? = some c →
        c.cont = false → c.err = none →
        (IterateCalls C m db f s).length = j + 1 ∧ (BoltStore.Iterate C m db f s).2 = none) ∧
      ((∀ e ∈ scanEntries m db, ∃ n, C.NewNodeFromBytes e.2 = Except.ok n) →
        AllGo (IterateCalls C m db f s) →
        (BoltStore.Iterate C m db f s).2 = none ∧
          (IterateCalls C m db f s).length = (scanEntries m db).length) ∧
      ((BoltStore.Iterate C m db f s).2 = none →
        (∀ c ∈ IterateCalls C m db f s, c.cont = true) →
        (IterateCalls C m db f s).length = (scanEntries m db).length) := by
  obtain ⟨hpre, _, hout⟩ := BoltStore.Iterate_outcome C m db f s hopen hs
  have hkeys : (IterateCalls C m db f s).map Call.key <+:
      (scanEntries m db).map (fun e => TrimPrefix e.1 m.pfx) := by
    refine prefix_map_of_prefix_map (fun c => some c.kv) (entryKV C m.pfx) Call.key
      (fun e => TrimPrefix e.1 m.pfx) ?_ _ _ hpre
    intro c e hce
    unfold entryKV at hce
    cases hd : C.NewNodeFromBytes e.2 with
    | error d => simp [hd] at hce
    | ok n =>
      simp only [hd, Option.some.injEq] at hce
      have hk := congrArg KV.K hce
      simpa [Call.kv] using hk
  refine ⟨BoltStore.Iterate_traced_err C m db f s, hpre, hkeys, ?_, ?_, ?_, ?_⟩
  · exact List.Pairwise.sublist hkeys.sublist (scanEntries_keys_sorted m db hs)
  · intro j c hj hc he
    have := RunOutcome.stop_is_last C _ _ _ hout j c hj (Or.inl hc)
    exact ⟨this.1, by rw [this.2, he]⟩
  · intro hdec hgo
    rcases hout with ⟨_, hl, he⟩ | ⟨init, c, hn, _, hc, _⟩ | ⟨_, e, d, hidx, hde, _⟩
    · exact ⟨he, hl⟩
    · have hmem : c ∈ IterateCalls C m db f s := by rw [hn]; simp
      have hcg := hgo c hmem
      rcases hc with h1 | h1
      · rw [hcg.1] at h1; exact Bool.noConfusion h1
      · exact (h1 hcg.2).elim
    · obtain ⟨n, hn⟩ := hdec e (List.getElem?_mem hidx)
      rw [hn] at hde
      exact Except.noConfusion hde
  · intro herr hcont
    rcases hout with ⟨_, hl, _⟩ | ⟨init, c, hn, _, hc, he⟩ | ⟨_, e, d, _, _, he⟩
    · exact hl
    · have hmem : c ∈ IterateCalls C m db f s := by rw [hn]; simp
      rcases hc with h1 | h1
      · rw [hcont c hmem] at h1; exact Bool.noConfusion h1
      · rw [herr] at he
        exact (h1 he.symm).elim
    · rw [herr] at he
      exact Option.noConfusion he

/-- Witness for C12: a callback that stops at its second call, through the empty
prefix of the sample engine, which holds three entries. -/
theorem Iterate_order_and_early_exit_witness :
    sampleDB.opened = true ∧ sampleDB.tree.Sorted ∧
      IterateCalls sampleCodec rootHandle sampleDB stopAtSecond 0 =
        [⟨[1], SampleNode.leaf 1 1, true, none⟩, ⟨[2], SampleNode.leaf 2 2, false, none⟩] ∧
      (IterateCalls sampleCodec rootHandle sampleDB stopAtSecond 0).length = 1 + 1 ∧
      (BoltStore.Iterate sampleCodec rootHandle sampleDB stopAtSecond 0).2 = none :=
  ⟨rfl, by decide, rfl,
    (Iterate_order_and_early_exit sampleCodec rootHandle sampleDB stopAtSecond 0 rfl
      (by decide)).2.2.2.2.1 1 ⟨[2], SampleNode.leaf 2 2, false, none⟩ rfl rfl rfl⟩

/-- C13. `Iterate` error propagation, on an open engine with a sorted bucket. If
a call returned an error, it is the last call and `Iterate` returns that
error, whatever the continuation signal. The callback is not invoked for an
entry whose value does not decode, nor for a later one; and if the entries
before it decode and every call returned `(true, nil)`, `Iterate` returns the
decoder's error for it. -/
theorem Iterate_error_propagation (C : Codec Node Hash) (m : BoltStore Hash) (db : DB)
    (f : σ → Bytes → Node → σ × Bool × Option Error) (s : σ)
    (hopen : db.opened = true) (hs : db.tree.Sorted) :
    (∀ (j : Nat) (c : Call Node) (e : Error), (IterateCalls C m db f s)[j]? = some c →
        c.err = some e →
        (IterateCalls C m db f s).length = j + 1 ∧
          (BoltStore.Iterate C m db f s).2 = some e) ∧
      (∀ (i : Nat) (e : Bytes × Bytes) (d : DecodeError), (scanEntries m db)[i]? = some e →
        C.NewNodeFromBytes e.2 = Except.error d →
        (IterateCalls C m db f s).length ≤ i) ∧
      (∀ (i : Nat) (e : Bytes × Bytes) (d : DecodeError), (scanEntries m db)[i]? = some e →
        C.NewNodeFromBytes e.2 = Except.error d →
        (∀ (i0 : Nat) (e0 : Bytes × Bytes), i0 < i → (scanEntries m db)[i0]? = some e0 →
          ∃ n, C.NewNodeFromBytes e0.2 = Except.ok n) →
        AllGo (IterateCalls C m db f s) →
        (BoltStore.Iterate C m db f s).2 = some (Error.decode d) ∧
          (IterateCalls C m db f s).length = i) := by
  obtain ⟨hpre, _, hout⟩ := BoltStore.Iterate_outcome C m db f s hopen hs
  refine ⟨?_, ?_, ?_⟩
  · intro j c e hj he
    have := RunOutcome.stop_is_last C _ _ _ hout j c hj (Or.inr (by rw [he]; simp))
    exact ⟨this.1, by rw [this.2, he]⟩
  · intro i e d hi hd
    exact calls_stop_before_undecodable C m.pfx _ _ hpre i e d hi hd
  · intro i e d hi hd hbefore hgo
    have hle := calls_stop_before_undecodable C m.pfx _ _ hpre i e d hi hd
    have hilt : i < (scanEntries m db).length := by
      by_contra hc
      rw [List.getElem?_eq_none (Nat.le_of_not_lt hc)] at hi
      exact Option.noConfusion hi
    rcases hout with ⟨_, hl, _⟩ | ⟨init, c, hn, _, hc, _⟩ | ⟨_, e1, d1, hidx, hde, he⟩
    · omega
    · have hmem : c ∈ IterateCalls C m db f s := by rw [hn]; simp
      have hcg := hgo c hmem
      rcases hc with h1 | h1
      · rw [hcg.1] at h1; exact Bool.noConfusion h1
      · exact (h1 hcg.2).elim
    · have heq : (IterateCalls C m db f s).length = i := by
        by_contra hne
        have hlt : (IterateCalls C m db f s).length < i := by omega
        obtain ⟨n, hn⟩ := hbefore _ e1 hlt hidx
        rw [hn] at hde
        exact Except.noConfusion hde
      rw [heq, hi] at hidx
      simp only [Option.some.injEq] at hidx
      subst hidx
      rw [hd] at hde
      simp only [Except.error.injEq] at hde
      subst hde
      exact ⟨he, heq⟩

/-- Witness for C13: a callback that fails with error 7 at its second call and
asks to go on, through the empty prefix of the sample engine. -/
theorem Iterate_error_propagation_witness :
    sampleDB.opened = true ∧ sampleDB.tree.Sorted ∧
      IterateCalls sampleCodec rootHandle sampleDB failAtSecond 0 =
        [⟨[1], SampleNode.leaf 1 1, true, none⟩,
          ⟨[2], SampleNode.leaf 2 2, true, some (Error.other 7)⟩] ∧
      (IterateCalls sampleCodec rootHandle sampleDB failAtSecond 0).length = 1 + 1 ∧
      (BoltStore.Iterate sampleCodec rootHandle sampleDB failAtSecond 0).2 =
        some (Error.other 7) :=
  ⟨rfl, by decide, rfl,
    (Iterate_error_propagation sampleCodec rootHandle sampleDB failAtSecond 0 rfl
      (by decide)).1 1 ⟨[2], SampleNode.leaf 2 2, true, some (Error.other 7)⟩
      (Error.other 7) rfl rfl⟩

/-- With a callback that always returns `(true, nil)`, `Iterate` passes to it the
pairs `List(0)` returns, and returns the error `List(0)` returns. -/
theorem BoltStore.Iterate_agrees_List (C : Codec Node Hash) (m : BoltStore Hash) (db : DB)
    (f : σ → Bytes → Node → σ × Bool × Option Error) (s : σ)
    (hf : ∀ s k n, (f s k n).2 = (true, none)) :
    ((IterateCalls C m db f s).map Call.kv, (BoltStore.Iterate C m db f s).2) =
      BoltStore.List C m db 0 := by
  have herr := BoltStore.Iterate_traced_err C m db f s
  rw [Prod.ext_iff] at herr
  rw [← herr.2]
  unfold IterateCalls BoltStore.Iterate BoltStore.List DB.View
  split_ifs
  · exact iterateLoop_traced_eq_listLoop C m.pfx f hf _ s [] 0
  · rfl

/-- C17. `List` and `Iterate` agree: for every handle and engine state, the pairs
`Iterate` passes to a callback that always returns `(true, nil)` are the pairs
`List(0)` returns, in the same order; `Iterate` returns the error `List(0)`
returns, so it fails with a decode error exactly when `List(0)` does. -/
theorem List_Iterate_agree (C : Codec Node Hash) (m : BoltStore Hash) (db : DB)
    (f : σ → Bytes → Node → σ × Bool × Option Error) (s : σ)
    (hf : ∀ s k n, (f s k n).2 = (true, none)) :
    (IterateCalls C m db f s).map Call.kv = (BoltStore.List C m db 0).1 ∧
      (BoltStore.Iterate C m db f s).2 = (BoltStore.List C m db 0).2 ∧
      (∀ d : DecodeError, (BoltStore.Iterate C m db f s).2 = some (Error.decode d) ↔
        (BoltStore.List C m db 0).2 = some (Error.decode d)) := by
  have h := BoltStore.Iterate_agrees_List C m db f s hf
  rw [Prod.ext_iff] at h
  refine ⟨h.1, h.2, ?_⟩
  intro d
  rw [show (BoltStore.Iterate C m db f s).2 = (BoltStore.List C m db 0).2 from h.2]

/-- Witness for C17: the callback that records the keys, on the engine whose
second value does not decode. -/
theorem List_Iterate_agree_witness :
    (∀ (s : List Bytes) (k : Bytes) (n : SampleNode), (recordKeys s k n).2 = (true, none)) ∧
      (IterateCalls sampleCodec rootHandle brokenDB recordKeys []).map Call.kv =
        [⟨[1], SampleNode.leaf 1 1⟩] ∧
      (BoltStore.List sampleCodec rootHandle brokenDB 0).1 = [⟨[1], SampleNode.leaf 1 1⟩] ∧
      (IterateCalls sampleCodec rootHandle brokenDB recordKeys []).map Call.kv =
        (BoltStore.List sampleCodec rootHandle brokenDB 0).1 :=
  ⟨fun _ _ _ => rfl, rfl, rfl,
    (List_Iterate_agree sampleCodec rootHandle brokenDB recordKeys []
      (fun _ _ _ => rfl)).1⟩

end IterateClaims

/-! ## The root entry and the cache -/

section RootEntry

variable {Node Hash : Type}

theorem bytesLt_ne (a b : Bytes) (h : bytesLt a b = true) : a ≠ b := by
  intro hab
  rw [hab, bytesLt_irrefl] at h
  exact Bool.noConfusion h

theorem Bucket.mem_upsert_self (b : Bucket) (k v : Bytes) : (k, v) ∈ b.upsert k v := by
  induction b with
  | nil => simp [Bucket.upsert]
  | cons e rest ih =>
    obtain ⟨k0, v0⟩ := e
    unfold Bucket.upsert
    split_ifs
    · exact List.mem_cons_self _ _
    · exact List.mem_cons_self _ _
    · exact List.mem_cons_of_mem _ ih

/-- In a sorted bucket a write replaces the entry of its key: every other entry
afterwards was there before, under another key. -/
theorem Bucket.mem_upsert_sorted (b : Bucket) (k v : Bytes) (hs : b.Sorted)
    (e : Bytes × Bytes) (h : e ∈ b.upsert k v) : e = (k, v) ∨ (e ∈ b ∧ e.1 ≠ k) := by
  induction b with
  | nil => exact Or.inl (by simpa [Bucket.upsert] using h)
  | cons e0 rest ih =>
    obtain ⟨k0, v0⟩ := e0
    unfold Bucket.Sorted at hs ih
    rw [List.pairwise_cons] at hs
    obtain ⟨hhead, htail⟩ := hs
    unfold Bucket.upsert at h
    split_ifs at h with h1 h2
    · rcases List.mem_cons.1 h with h3 | h3
      · exact Or.inl h3
      · refine Or.inr ⟨h3, ?_⟩
        rcases List.mem_cons.1 h3 with h4 | h4
        · rw [h4]; exact (bytesLt_ne _ _ h1).symm
        · exact (bytesLt_ne _ _ (bytesLt_trans _ _ _ h1 (hhead e h4))).symm
    · rcases List.mem_cons.1 h with h3 | h3
      · exact Or.inl h3
      · refine Or.inr ⟨List.mem_cons_of_mem _ h3, ?_⟩
        rw [h2]
        exact (bytesLt_ne _ _ (hhead e h3)).symm
    · rcases List.mem_cons.1 h with h3 | h3
      · refine Or.inr ⟨by rw [h3]; exact List.mem_cons_self _ _, ?_⟩
        rw [h3]
        exact fun hk => h2 hk.symm
      · rcases ih htail h3 with h4 | h4
        · exact Or.inl h4
        · exact Or.inr ⟨List.mem_cons_of_mem _ h4.1, h4.2⟩

/-- On an open engine with a sorted bucket in which every value under the
prefix decodes, `List(0)` returns one pair per entry under the prefix. -/
theorem BoltStore.List_zero_eq (C : Codec Node Hash) (m : BoltStore Hash) (db : DB)
    (hopen : db.opened = true) (hs : db.tree.Sorted)
    (hdec : ∀ e ∈ scanEntries m db, ∃ n, C.NewNodeFromBytes e.2 = Except.ok n) :
    BoltStore.List C m db 0 = ((scanEntries m db).filterMap (entryKV C m.pfx), none) := by
  have hall : ∀ e ∈ scanEntries m db, HasPrefix e.1 m.pfx = true := by
    intro e he
    simpa using (List.mem_filter.1 he).2
  have htw : (scanEntries m db).takeWhile (fun e => HasPrefix e.1 m.pfx) =
      scanEntries m db := by
    rw [List.takeWhile_eq_self_iff]
    intro e he
    exact hall e he
  rw [BoltStore.List_eq_filter C m db 0 hs, DB.View_opened _ _ _ hopen]
  show listLoop C m.pfx 0 (scanEntries m db) [] 0 = _
  rw [listLoop_zero C m.pfx _ (fun e he _ => hdec e he), htw]
  simp

/-- C18. The root entry is visible to scans: through a handle whose prefix is a
leading part of `"root"`, over a sorted bucket whose other values under the
prefix decode, after a successful `SetRoot(h)` the engine entry `"root"` with
the hexadecimal text of `h` is among the entries the scans visit. If the node
decoder rejects that text, `List(0)` fails with the decoder's error for it;
if the decoder accepts it as node `n`, `List(0)` succeeds and contains the pair
of `"root"` without the prefix and `n`. `Iterate` with a callback that always
returns `(true, nil)` fails with the same error, or passes that pair. -/
theorem root_entry_visible_to_scans (C : Codec Node Hash) (m m1 : BoltStore Hash)
    (db db1 : DB) (h : Hash) (hs : db.tree.Sorted)
    (hpfx : HasPrefix rootKey m.pfx = true)
    (hset : BoltStore.SetRoot C m db h = (none, m1, db1))
    (hothers : ∀ e ∈ db.tree, HasPrefix e.1 m.pfx = true → e.1 ≠ rootKey →
      ∃ n, C.NewNodeFromBytes e.2 = Except.ok n) :
    (rootKey, C.Hex h) ∈ scanEntries m1 db1 ∧
      (∀ d, C.NewNodeFromBytes (C.Hex h) = Except.error d →
        (BoltStore.List C m1 db1 0).2 = some (Error.decode d)) ∧
      (∀ n, C.NewNodeFromBytes (C.Hex h) = Except.ok n →
        (BoltStore.List C m1 db1 0).2 = none ∧
          (⟨TrimPrefix rootKey m.pfx, n⟩ : KV Node) ∈ (BoltStore.List C m1 db1 0).1) ∧
      (∀ (σ : Type) (f : σ → Bytes → Node → σ × Bool × Option Error) (s : σ),
        (∀ s k n, (f s k n).2 = (true, none)) →
        (∀ d, C.NewNodeFromBytes (C.Hex h) = Except.error d →
          (BoltStore.Iterate C m1 db1 f s).2 = some (Error.decode d)) ∧
        (∀ n, C.NewNodeFromBytes (C.Hex h) = Except.ok n →
          (BoltStore.Iterate C m1 db1 f s).2 = none ∧
            (⟨TrimPrefix rootKey m.pfx, n⟩ : KV Node) ∈
              (IterateCalls C m1 db1 f s).map Call.kv)) := by
  obtain ⟨ho, hm1, hdb1⟩ := BoltStore.SetRoot_ok C m m1 db db1 h hset
  have hp1 : m1.pfx = m.pfx := by rw [hm1]
  have ho1 : db1.opened = true := by rw [hdb1]; exact ho
  have hs1 : db1.tree.Sorted := by rw [hdb1]; exact Bucket.Sorted_upsert _ _ _ hs
  have hmem : (rootKey, C.Hex h) ∈ scanEntries m1 db1 := by
    unfold scanEntries
    rw [hp1, hdb1]
    exact List.mem_filter.2 ⟨Bucket.mem_upsert_self _ _ _, by simpa using hpfx⟩
  have hdecO : ∀ e ∈ scanEntries m1 db1, e ≠ (rootKey, C.Hex h) →
      ∃ n, C.NewNodeFromBytes e.2 = Except.ok n := by
    intro e he hne
    unfold scanEntries at he
    rw [hp1, hdb1] at he
    obtain ⟨he1, he2⟩ := List.mem_filter.1 he
    rcases Bucket.mem_upsert_sorted _ _ _ hs e he1 with h3 | h3
    · exact (hne h3).elim
    · exact hothers e h3.1 (by simpa using he2) h3.2
  have hListErr : ∀ d, C.NewNodeFromBytes (C.Hex h) = Except.error d →
      (BoltStore.List C m1 db1 0).2 = some (Error.decode d) := by
    intro d hd
    obtain ⟨pre, post, hsplit⟩ := List.append_of_mem hmem
    have hsorted : (scanEntries m1 db1).Pairwise (fun x y => bytesLt x.1 y.1 = true) :=
      List.Pairwise.filter _ hs1
    rw [hsplit, List.pairwise_append] at hsorted
    have hpre : ∀ e ∈ pre, HasPrefix e.1 m1.pfx = true ∧
        ∃ n, C.NewNodeFromBytes e.2 = Except.ok n := by
      intro e he
      have hin : e ∈ scanEntries m1 db1 := by
        rw [hsplit]; exact List.mem_append_left _ he
      refine ⟨by simpa using (List.mem_filter.1 hin).2, hdecO e hin ?_⟩
      intro heq
      have hlt := hsorted.2.2 e he (rootKey, C.Hex h) (List.mem_cons_self _ _)
      rw [heq] at hlt
      simp [bytesLt_irrefl] at hlt
    rw [BoltStore.List_eq_filter C m1 db1 0 hs1, DB.View_opened _ _ _ ho1]
    show (listLoop C m1.pfx 0 (scanEntries m1 db1) [] 0).2 = _
    rw [hsplit, listLoop_decode_error C m1.pfx 0 post rootKey (C.Hex h) d
      (by rw [hp1]; exact hpfx) hd pre hpre [] 0 (Or.inl rfl)]
  have hListOk : ∀ n, C.NewNodeFromBytes (C.Hex h) = Except.ok n →
      (BoltStore.List C m1 db1 0).2 = none ∧
        (⟨TrimPrefix rootKey m.pfx, n⟩ : KV Node) ∈ (BoltStore.List C m1 db1 0).1 := by
    intro n hn
    have hdec : ∀ e ∈ scanEntries m1 db1, ∃ n, C.NewNodeFromBytes e.2 = Except.ok n := by
      intro e he
      by_cases heq : e = (rootKey, C.Hex h)
      · rw [heq]; exact ⟨n, hn⟩
      · exact hdecO e he heq
    rw [BoltStore.List_zero_eq C m1 db1 ho1 hs1 hdec]
    refine ⟨rfl, ?_⟩
    simp only
    rw [List.mem_filterMap]
    exact ⟨(rootKey, C.Hex h), hmem, by simp [entryKV, hn, hp1]⟩
  refine ⟨hmem, hListErr, hListOk, ?_⟩
  intro σ f s hf
  have hag := BoltStore.Iterate_agrees_List C m1 db1 f s hf
  rw [Prod.ext_iff] at hag
  simp only at hag
  refine ⟨?_, ?_⟩
  · intro d hd
    rw [hag.2]
    exact hListErr d hd
  · intro n hn
    rw [hag.2, hag.1]
    exact hListOk n hn

/-- Witness for C18: after `SetRoot` through the empty prefix of the sample
engine, `List(0)` fails with the node decoder's error for the hexadecimal
text. -/
theorem root_entry_visible_to_scans_witness :
    sampleDB.tree.Sorted ∧ HasPrefix rootKey rootHandle.pfx = true ∧
      sampleCodec.NewNodeFromBytes (sampleCodec.Hex [1, 2]) = Except.error ⟨2⟩ ∧
      (BoltStore.List sampleCodec (⟨[], some [1, 2]⟩ : BoltStore Bytes)
        ⟨true, [([1], [1, 1, 1]), ([2], [1, 2, 2]), (rootKey, [48, 49, 48, 50]),
          ([120, 1], [1, 3, 3])]⟩ 0).2 = some (Error.decode ⟨2⟩) :=
  ⟨by decide, rfl, rfl,
    (root_entry_visible_to_scans sampleCodec rootHandle ⟨[], some [1, 2]⟩ sampleDB
      ⟨true, [([1], [1, 1, 1]), ([2], [1, 2, 2]), (rootKey, [48, 49, 48, 50]),
        ([120, 1], [1, 3, 3])]⟩ [1, 2] (by decide) rfl rfl (by
        intro e he _ _
        simp only [sampleDB, List.mem_cons, List.mem_singleton, List.not_mem_nil,
          or_false] at he
        rcases he with rfl | rfl | rfl <;> exact ⟨_, rfl⟩)).2.1 ⟨2⟩ rfl⟩

/-- A disciplined operation through or beside a handle with the empty prefix
keeps its prefix, keeps its cache in agreement with the engine, and keeps the
root text as `SetRoot` writes it. -/
theorem Coherent_step (C : Codec Node Hash) (m : BoltStore Hash) (db : DB)
    (op : Op Node Hash) (hpfx : m.pfx = []) (hop : Op.Disciplined C m.pfx op)
    (hco : Coherent C m db) (htx : RootTextWritten C m db) :
    (Op.step C (m, db) op).1.pfx = [] ∧
      Coherent C (Op.step C (m, db) op).1 (Op.step C (m, db) op).2 ∧
      RootTextWritten C (Op.step C (m, db) op).1 (Op.step C (m, db) op).2 := by
  have hk : Concat m.pfx rootKey = rootKey := by simp [Concat, hpfx]
  have hkey : ∀ m1 : BoltStore Hash, m1.pfx = m.pfx → Concat m1.pfx rootKey = rootKey := by
    intro m1 h1; rw [h1]; exact hk
  cases op with
  | get via key => exact ⟨hpfx, hco, htx⟩
  | iterate via τ f s => exact ⟨hpfx, hco, htx⟩
  | list via limit => exact ⟨hpfx, hco, htx⟩
  | withPrefix via suffix => exact ⟨hpfx, hco, htx⟩
  | getRootVia via => exact ⟨hpfx, hco, htx⟩
  | setRootVia via hash => exact False.elim hop
  | put via key node =>
    simp only [Op.step]
    rcases hput : BoltStore.Put C via db key node with ⟨err, db1⟩
    simp only
    have hget : db1.tree.Get (Concat m.pfx rootKey) = db.tree.Get (Concat m.pfx rootKey) := by
      cases err with
      | some e =>
        unfold BoltStore.Put at hput
        simp only [Prod.mk.injEq] at hput
        have hupd : db.Update (fun b => b.Put (Concat via.pfx key) (C.Value node)) =
            (db1, some e) := by
          rw [Prod.ext_iff]; exact ⟨hput.2, hput.1⟩
        rw [DB.Update_Put_error db db1 _ _ e hupd]
      | none =>
        obtain ⟨_, hdb1⟩ := BoltStore.Put_ok C via db db1 key node hput
        rw [hdb1]
        exact Bucket.Get_upsert_other _ _ _ _ (fun hkk => hop hkk.symm)
    refine ⟨hpfx, ?_, ?_⟩
    · intro h hh
      unfold Coherent at hco
      rw [hget]
      exact hco h hh
    · intro v hv
      rw [hget] at hv
      exact htx v hv
  | getRoot =>
    simp only [Op.step]
    cases hcur : m.currentRoot with
    | some c =>
      rw [BoltStore.GetRoot_populated C m db c hcur]
      exact ⟨hpfx, hco, htx⟩
    | none =>
      by_cases ho : db.opened = true
      · rw [BoltStore.GetRoot_unpopulated C m db hcur ho]
        cases hg : db.tree.Get rootKey with
        | none => exact ⟨hpfx, hco, htx⟩
        | some v =>
          cases hd : C.NewHashFromHex v with
          | error d =>
            simp only [hd]
            exact ⟨hpfx, hco, htx⟩
          | ok c =>
            simp only [hd]
            refine ⟨hpfx, ?_, htx⟩
            intro h hh
            simp only [Option.some.injEq] at hh
            subst hh
            obtain ⟨h0, hv0, hrt⟩ := htx v (by rw [hk]; exact hg)
            rw [hv0, hrt] at hd
            simp only [Except.ok.injEq] at hd
            subst hd
            show db.tree.Get (Concat m.pfx rootKey) = _
            rw [hk, hg, hv0]
      · have hc : db.opened = false := by simpa using ho
        obtain ⟨p0, r0⟩ := m
        simp only at hcur
        subst hcur
        unfold BoltStore.GetRoot
        simp only
        rw [DB.View_closed _ _ _ hc]
        exact ⟨hpfx, hco, htx⟩
  | setRoot hash =>
    simp only [Op.step]
    rcases hset : BoltStore.SetRoot C m db hash with ⟨err, m1, db1⟩
    simp only
    cases err with
    | some e =>
      obtain ⟨hm, hdb, _⟩ := BoltStore.SetRoot_error C m m1 db db1 hash e hset
      rw [hm, hdb]
      exact ⟨hpfx, hco, htx⟩
    | none =>
      obtain ⟨_, hm1, hdb1⟩ := BoltStore.SetRoot_ok C m m1 db db1 hash hset
      have hp1 : m1.pfx = m.pfx := by rw [hm1]
      have hget : db1.tree.Get (Concat m1.pfx rootKey) = some (C.Hex hash) := by
        rw [hkey m1 hp1, hdb1]
        exact Bucket.Get_upsert_same _ _ _
      refine ⟨by rw [hp1]; exact hpfx, ?_, ?_⟩
      · intro h hh
        rw [hm1] at hh
        simp only [Option.some.injEq] at hh
        subst hh
        exact hget
      · intro v hv
        rw [hget] at hv
        simp only [Option.some.injEq] at hv
        exact ⟨hash, hv.symm, hop⟩

/-- Along a disciplined sequence of operations a handle with the empty prefix
keeps its cache in agreement with the engine. -/
theorem Coherent_run (C : Codec Node Hash) (ops : List (Op Node Hash)) :
    ∀ (m : BoltStore Hash) (db : DB), m.pfx = [] →
    (∀ op ∈ ops, Op.Disciplined C [] op) → Coherent C m db → RootTextWritten C m db →
    Coherent C (Op.run C (m, db) ops).1 (Op.run C (m, db) ops).2 := by
  induction ops with
  | nil => intro m db _ _ hco _; exact hco
  | cons op rest ih =>
    intro m db hpfx hops hco htx
    have hop : Op.Disciplined C m.pfx op := by
      rw [hpfx]; exact hops op (List.mem_cons_self _ _)
    obtain ⟨h1, h2, h3⟩ := Coherent_step C m db op hpfx hop hco htx
    exact ih _ _ h1 (fun o ho => hops o (List.mem_cons_of_mem _ ho)) h2 h3

/-- C16, as amended. Cache coherence for the only writer of the root, in the
namespace of the empty prefix. Let `m` be a handle with the empty prefix, whose
cache agrees with the engine at the start (such as a new handle, whose cache
is empty), over an engine whose root key is absent or holds a text written by
`SetRoot`. Along every sequence of operations in which `Get`, `Put`, `GetRoot`,
`Iterate`, `List` and `WithPrefix` go through any handles of the engine and
`SetRoot` goes through `m` only, no `Put` writes the root key of `m` and every
hash given to `SetRoot` has a hexadecimal text that decodes back to it:
whenever the cache of `m` holds `h`, the engine's root key of the namespace of
`m`, `prefix ‖ "root"`, holds the hexadecimal text of `h`. -/
theorem cache_coherent_for_sole_writer (C : Codec Node Hash) (m : BoltStore Hash) (db : DB)
    (ops : List (Op Node Hash)) (hpfx : m.pfx = [])
    (hops : ∀ op ∈ ops, Op.Disciplined C m.pfx op)
    (hcache : Coherent C m db) (htext : RootTextWritten C m db) :
    ∀ h, (Op.run C (m, db) ops).1.currentRoot = some h →
      (Op.run C (m, db) ops).2.tree.Get ((Op.run C (m, db) ops).1.pfx ++ rootKey) =
        some (C.Hex h) := by
  have hops0 : ∀ op ∈ ops, Op.Disciplined C [] op := by
    intro op hop
    have := hops op hop
    rw [hpfx] at this
    exact this
  exact Coherent_run C ops m db hpfx hops0 hcache htext

/-- Counterexample to C16 as stated: two handles with the empty prefix over one
engine. After `SetRoot(01 02)` through the first and `SetRoot(03 04)` through
the second, the cache of the first holds `01 02` while the engine's root key
holds the hexadecimal text of `03 04`, which is not that of `01 02`. -/
theorem cache_stale_after_other_handle_writes :
    BoltStore.SetRoot sampleCodec rootHandle ⟨true, []⟩ [1, 2] =
        (none, ⟨[], some [1, 2]⟩, ⟨true, [(rootKey, [48, 49, 48, 50])]⟩) ∧
      BoltStore.SetRoot sampleCodec rootHandle ⟨true, [(rootKey, [48, 49, 48, 50])]⟩ [3, 4] =
        (none, ⟨[], some [3, 4]⟩, ⟨true, [(rootKey, [48, 51, 48, 52])]⟩) ∧
      (⟨[], some [1, 2]⟩ : BoltStore Bytes).currentRoot = some [1, 2] ∧
      Bucket.Get [(rootKey, [48, 51, 48, 52])] ((⟨[], some [1, 2]⟩ : BoltStore Bytes).pfx ++ rootKey)
        = some (sampleCodec.Hex [3, 4]) ∧
      sampleCodec.Hex [3, 4] ≠ sampleCodec.Hex [1, 2] :=
  ⟨rfl, rfl, rfl, rfl, by decide⟩

/-- Witness for C16 as amended: a new handle with the empty prefix sets a root, a
node is written through namespace `"x"`, the root is read through namespace
`"x"` and then through the handle itself. -/
theorem cache_coherent_for_sole_writer_witness :
    rootHandle.pfx = [] ∧
      Coherent sampleCodec rootHandle sampleDB ∧
      RootTextWritten sampleCodec rootHandle sampleDB ∧
      (Op.run sampleCodec (rootHandle, sampleDB)
          [Op.setRoot [1, 2], Op.put xHandle [1] (SampleNode.leaf 7 7),
            Op.getRootVia xHandle, Op.getRoot]).1.currentRoot = some [1, 2] ∧
      (Op.run sampleCodec (rootHandle, sampleDB)
          [Op.setRoot [1, 2], Op.put xHandle [1] (SampleNode.leaf 7 7),
            Op.getRootVia xHandle, Op.getRoot]).2.tree.Get
          ((Op.run sampleCodec (rootHandle, sampleDB)
            [Op.setRoot [1, 2], Op.put xHandle [1] (SampleNode.leaf 7 7),
              Op.getRootVia xHandle, Op.getRoot]).1.pfx ++ rootKey) =
        some (sampleCodec.Hex [1, 2]) :=
  have hops : ∀ op ∈ [Op.setRoot [1, 2], Op.put xHandle [1] (SampleNode.leaf 7 7),
      Op.getRootVia xHandle, (Op.getRoot : Op SampleNode Bytes)],
      Op.Disciplined sampleCodec rootHandle.pfx op := by
    intro op hop
    simp only [List.mem_cons, List.mem_singleton, List.not_mem_nil, or_false] at hop
    rcases hop with rfl | rfl | rfl | rfl
    · exact (rfl : sampleCodec.NewHashFromHex (sampleCodec.Hex [1, 2]) = Except.ok [1, 2])
    · exact (by decide : Concat xHandle.pfx [1] ≠ Concat rootHandle.pfx rootKey)
    · exact True.intro
    · exact True.intro
  have hco : Coherent sampleCodec rootHandle sampleDB := by
    intro h hh
    exact Option.noConfusion hh
  have htx : RootTextWritten sampleCodec rootHandle sampleDB := by
    intro v hv
    exact Option.noConfusion hv
  ⟨rfl, hco, htx, rfl,
    cache_coherent_for_sole_writer sampleCodec rootHandle sampleDB _ rfl hops hco htx
      [1, 2] rfl⟩

end RootEntry

end Store
